import Mathlib

/-!
Verification of `s3-mpu-rs` against its specification.

The development shallowly embeds the three core components of the crate:

* `src/split.rs` — the streaming splitter (`split`, `Split::poll_next`,
  `Inner`): byte buffers (`bytes::Bytes`) are modelled as `List Nat`, the
  incremental `Md5` hasher is modelled by the exact byte sequence absorbed so
  far (its `finalize` stands for the MD5 digest of that sequence, so equality
  of digests is stated as equality of absorbed byte sequences), and the
  pull-based `Stream` is modelled by a big-step run over a finite list of
  source items (`Ok` chunk / `Err`), producing the list of items the stream
  yields when polled to exhaustion.
* `src/dispatch.rs` — `dispatch_concurrent`: the single-threaded cooperative
  poll loop is embedded deterministically; the input stream is a script of
  per-poll responses and each task is a model future that resolves after a
  chosen number of polls.  A ghost event log (admissions, completions,
  errors) observes the execution.
* `src/lib.rs` — `multipart_upload`: the S3 client is an oracle assigning a
  result to each remote call, and the run records the trace of remote calls
  it issues.  The compile-time constants `MIN_PART_SIZE`/`MAX_PART_SIZE` are
  taken as parameters `minP`/`maxP` of the model; the source corresponds to
  instantiating them with the constants, which are also defined below.
-/

namespace S3Mpu

instance {ε α : Type} [DecidableEq ε] [DecidableEq α] : DecidableEq (Except ε α) := fun a b =>
  match a, b with
  | .error e, .error f =>
    decidable_of_iff (e = f) ⟨fun h => by rw [h], fun h => by injection h⟩
  | .error _, .ok _ => isFalse fun h => Except.noConfusion h
  | .ok _, .error _ => isFalse fun h => Except.noConfusion h
  | .ok x, .ok y =>
    decidable_of_iff (x = y) ⟨fun h => by rw [h], fun h => by injection h⟩

/-! ### Splitter (src/split.rs) -/

/-- A `bytes::Bytes` buffer, modelled as its byte sequence. -/
abbrev Chunk := List Nat

/-- `split.rs` `Part`.  `content_md5` holds the byte sequence absorbed by the
part's incremental `Md5` hasher; the real field is the MD5 digest of exactly
that sequence. -/
structure Part where
  body : List Chunk
  content_length : Nat
  content_md5 : List Nat
  part_number : Nat
deriving DecidableEq

/-- `split.rs` `Inner`.  `part_size_min`/`part_size_max` are the two ends of
the `RangeInclusive<usize>` configuration; `part_content_md5` is the hasher
state (bytes absorbed since the last reset). -/
structure Inner where
  remaining : Chunk
  part_size_min : Nat
  part_size_max : Nat
  part_body : List Chunk
  part_content_length : Nat
  part_content_md5 : List Nat
  part_number : Nat
deriving DecidableEq

/-- `Inner::new`. -/
def Inner.new (mn mx : Nat) : Inner :=
  { remaining := []
    part_size_min := mn
    part_size_max := mx
    part_body := []
    part_content_length := 0
    part_content_md5 := []
    part_number := 0 }

/-- `Inner::push_part`: fold a chunk into the current part (skipping empty
chunks). -/
def Inner.push_part (st : Inner) (chunk : Chunk) : Inner :=
  if chunk = [] then st
  else
    { st with
      part_content_length := st.part_content_length + chunk.length
      part_content_md5 := st.part_content_md5 ++ chunk
      part_body := st.part_body ++ [chunk] }

/-- `Inner::push`: stash the incoming chunk as `remaining` and fold the
previous `remaining` into the part (`mem::replace`). -/
def Inner.push (st : Inner) (chunk : Chunk) : Inner :=
  Inner.push_part { st with remaining := chunk } st.remaining

/-- `Inner::pop`: if enough bytes are buffered, slice
`min(remaining.len, max - len)` bytes off `remaining` (`Bytes::split_to`),
fold them in and emit a completed part.  `part_size_max - part_content_length`
is `usize` subtraction in the source; under the configuration contract
(`min ≤ max`, which keeps `part_content_length < min` at call sites) it never
underflows, matching truncated `Nat` subtraction. -/
def Inner.pop (st : Inner) : Option Part × Inner :=
  if st.part_size_min ≤ st.part_content_length + st.remaining.length then
    let n := min st.remaining.length (st.part_size_max - st.part_content_length)
    let st1 := Inner.push_part { st with remaining := st.remaining.drop n } (st.remaining.take n)
    (some
      { body := st1.part_body
        content_length := st1.part_content_length
        content_md5 := st1.part_content_md5
        part_number := st1.part_number + 1 },
      { st1 with
        part_body := []
        part_content_length := 0
        part_content_md5 := []
        part_number := st1.part_number + 1 })
  else (none, st)

/-- `Inner::finish`: flush `remaining` (`Bytes::split_off(0)`) and emit a
final part unless nothing was buffered. -/
def Inner.finish (st : Inner) : Option Part :=
  let st1 := Inner.push_part { st with remaining := [] } st.remaining
  if st1.part_body = [] then none
  else
    some
      { body := st1.part_body
        content_length := st1.part_content_length
        content_md5 := st1.part_content_md5
        part_number := st1.part_number + 1 }

/-- Bytes still held by the accumulation state (buffered part plus the
stashed `remaining`). -/
def stateBytes (st : Inner) : List Nat := st.part_body.flatten ++ st.remaining

/-- Number of bytes `pop` can still draw from. -/
def Inner.size (st : Inner) : Nat := st.part_content_length + st.remaining.length

/-- The consumer's `pop` loop in `Split::poll_next`: emit completed parts
while `pop` succeeds.  Structured with explicit fuel so that it computes by
kernel reduction; `popAll` supplies fuel that is always sufficient (each
successful `pop` removes at least one byte from the state whenever
`0 < min ≤ max`, the configuration contract — with `min = 0` the real stream
yields empty parts forever, which a terminating model cannot represent). -/
def popAllFuel : Nat → Inner → List Part × Inner
  | 0, st => ([], st)
  | fuel + 1, st =>
    match st.pop with
    | (some part, st') =>
      let r := popAllFuel fuel st'
      (part :: r.1, r.2)
    | (none, _) => ([], st)

/-- All parts `pop` yields from a state, with the state that remains. -/
def popAll (st : Inner) : List Part × Inner := popAllFuel (st.size + 1) st

/-- Big-step run of `Split::poll_next` (polled to exhaustion) over a finite
list of source items: pop all due parts, then pull the next source item; on
`Ok` push the chunk, on `Err` yield the error (the accumulation state is kept,
as in the source, where `inner` is not taken on error), at end-of-source
yield the result of `finish`. -/
def runSplitAux {ε : Type} (st : Inner) : List (Except ε Chunk) → List (Except ε Part)
  | [] => (popAll st).1.map .ok ++ (((popAll st).2.finish).map .ok).toList
  | .ok chunk :: rest => (popAll st).1.map .ok ++ runSplitAux ((popAll st).2.push chunk) rest
  | .error e :: rest => (popAll st).1.map .ok ++ .error e :: runSplitAux (popAll st).2 rest

/-- `split(body, part_size)`: the sequence of items the returned stream
yields for the given source items. -/
def split {ε : Type} (items : List (Except ε Chunk)) (mn mx : Nat) : List (Except ε Part) :=
  runSplitAux (Inner.new mn mx) items

/-- The successfully emitted parts of a stream run. -/
def okParts {ε : Type} (out : List (Except ε Part)) : List Part :=
  out.filterMap fun x => match x with | .ok p => some p | .error _ => none

/-- The chunks of the non-error source items. -/
def okChunks {ε : Type} (items : List (Except ε Chunk)) : List Chunk :=
  items.filterMap fun x => match x with | .ok c => some c | .error _ => none

/-- The bytes of a part: its body chunks, concatenated. -/
def Part.bytes (p : Part) : List Nat := p.body.flatten

/-- Concatenation of the bytes of a list of parts. -/
def partsBytes (ps : List Part) : List Nat := (ps.map Part.bytes).flatten

/-- A part is well-formed: its digest input is exactly its bytes, its
`content_length` is the total length of its body, and its body has no empty
chunks. -/
def Part.WF (p : Part) : Prop :=
  p.content_md5 = p.body.flatten ∧
  p.content_length = (p.body.map List.length).sum ∧
  ∀ c ∈ p.body, c ≠ []

/-- The accumulation state is well-formed (same three invariants, for the
part under construction). -/
def WFBuf (st : Inner) : Prop :=
  st.part_content_md5 = st.part_body.flatten ∧
  st.part_content_length = (st.part_body.map List.length).sum ∧
  ∀ c ∈ st.part_body, c ≠ []

/-! ### Dispatcher (src/dispatch.rs)

`dispatch_concurrent` is a single-threaded cooperative poll loop, embedded
deterministically.  The input stream is modelled by a script: each poll of
the underlying stream consumes one entry (`stall` = `Poll::Pending`,
`item` = `Poll::Ready(Some(_))`, `close` = `Poll::Ready(None)`); an
exhausted script stays pending forever.  `.fuse()` is modelled by the
`done` flag.  Each task (`F: Future`) is modelled by the number of polls
it stays pending before resolving to its result.  Returning `Poll::Pending`
from the wrapped `poll_fn` and being re-polled by the executor is the same
state transformation as the `loop`'s `continue`, so the two are merged into
one step function, iterated under fuel (the executor's re-polling); all
claims proved about the dispatcher are safety properties that hold for
every fuel.  A ghost event log (admissions, completions, errors) observes
the execution; it does not influence it. -/

/-- A model of a dispatcher task: it stays `Pending` for `delay` polls and
then resolves to `result`. -/
structure Fut (τ ε : Type) where
  delay : Nat
  result : Except ε τ
deriving DecidableEq

/-- One poll of a model task. -/
def pollFut {τ ε : Type} (f : Fut τ ε) : Option (Except ε τ) × Fut τ ε :=
  match f.delay with
  | 0 => (some f.result, f)
  | n + 1 => (none, ⟨n, f.result⟩)

/-- One scripted response of the input stream. -/
inductive StreamEntry (τ ε : Type) where
  | stall
  | item (x : Except ε (Fut τ ε))
  | close
deriving DecidableEq

/-- Ghost events observing a dispatcher execution. -/
inductive DEvent (τ ε : Type) where
  | admitted (f : Fut τ ε)
  | complete (t : τ)
  | sourceError (e : ε)
  | taskError (e : ε)
deriving DecidableEq

/-- The error reported by an event, if any. -/
def DEvent.errorOf {τ ε : Type} : DEvent τ ε → Option ε
  | .sourceError e => some e
  | .taskError e => some e
  | _ => none

/-- `limit.map_or(true, |limit| limit.get() > futures.len())`.  The
`NonZeroUsize` limit is modelled as a `Nat`; the claims hypothesise
`0 < L` where it matters. -/
def limitOk (limit : Option Nat) (n : Nat) : Bool :=
  match limit with
  | none => true
  | some l => n < l

/-- Dispatcher state: the remaining stream script, the fuse flag
(`stream.is_done()`), the in-flight futures, and the collected outputs. -/
structure DState (τ ε : Type) where
  script : List (StreamEntry τ ε)
  done : Bool
  futures : List (Fut τ ε)
  outputs : List τ
deriving DecidableEq

/-- The admission `while` loop of `dispatch_concurrent`: while below the
limit, poll the (fused) stream; push admitted futures, break on
`Pending`/`None`, propagate a stream error (the `?`). -/
def admitLoop {τ ε : Type} (limit : Option Nat) (script : List (StreamEntry τ ε))
    (done : Bool) (futures : List (Fut τ ε)) :
    List (DEvent τ ε) × Except ε (List (StreamEntry τ ε) × Bool × List (Fut τ ε)) :=
  if limitOk limit futures.length then
    if done then ([], .ok (script, done, futures))
    else
      match script with
      | [] => ([], .ok ([], done, futures))
      | .stall :: rest => ([], .ok (rest, done, futures))
      | .close :: rest => ([], .ok (rest, true, futures))
      | .item (.error e) :: _ => ([.sourceError e], .error e)
      | .item (.ok f) :: rest =>
        let r := admitLoop limit rest done (futures ++ [f])
        (.admitted f :: r.1, r.2)
  else ([], .ok (script, done, futures))

/-- `Vec::swap_remove(i)`: replace element `i` with the last element and
shorten by one. -/
def swapRemove {α : Type} (l : List α) (i : Nat) : List α :=
  match l.getLast? with
  | none => l
  | some x => l.dropLast.set i x

/-- The polling sweep over `futures` (`while i < futures.len()`): poll each
in-flight task, `swap_remove` completed ones and append their outputs,
propagate a task error (the `?`).  Structured with fuel so that it computes
by kernel reduction; the measure `futures.len - i` strictly decreases each
iteration, so `sweep` supplies fuel that is always sufficient. -/
def sweepFuel {τ ε : Type} :
    Nat → List (Fut τ ε) → Nat → List τ →
      List (DEvent τ ε) × Except ε (List (Fut τ ε) × List τ)
  | 0, futures, _, outputs => ([], .ok (futures, outputs))
  | fuel + 1, futures, i, outputs =>
    if h : i < futures.length then
      match pollFut (futures.get ⟨i, h⟩) with
      | (some (.error e), _) => ([.taskError e], .error e)
      | (some (.ok t), _) =>
        let r := sweepFuel fuel (swapRemove futures i) i (outputs ++ [t])
        (.complete t :: r.1, r.2)
      | (none, f') => sweepFuel fuel (futures.set i f') (i + 1) outputs
    else ([], .ok (futures, outputs))

/-- The sweep, with sufficient fuel. -/
def sweep {τ ε : Type} (futures : List (Fut τ ε)) (i : Nat) (outputs : List τ) :
    List (DEvent τ ε) × Except ε (List (Fut τ ε) × List τ) :=
  sweepFuel (futures.length + 1) futures i outputs

/-- The result of one pass of the `poll_fn` loop body. -/
inductive StepOut (τ ε : Type) where
  | next (st : DState τ ε)
  | finished (outs : List τ)
  | failed (e : ε)
deriving DecidableEq

/-- One pass of the `loop` body inside `poll_fn`: admitted up to the limit,
sweep the in-flight futures, then test
`stream.is_done() && futures.is_empty()`. -/
def iterate {τ ε : Type} (limit : Option Nat) (st : DState τ ε) :
    List (DEvent τ ε) × StepOut τ ε :=
  match admitLoop limit st.script st.done st.futures with
  | (evs1, .error e) => (evs1, .failed e)
  | (evs1, .ok (script1, done1, futures1)) =>
    match sweep futures1 0 st.outputs with
    | (evs2, .error e) => (evs1 ++ evs2, .failed e)
    | (evs2, .ok (futs, outs)) =>
      if done1 && futs.isEmpty then (evs1 ++ evs2, .finished outs)
      else (evs1 ++ evs2, .next ⟨script1, done1, futs, outs⟩)

/-- Iterated passes (`continue`, or `Poll::Pending` followed by an executor
re-poll — the same state transformation), under fuel.  `none` means the
execution was still pending when the fuel ran out. -/
def dispatchRun {τ ε : Type} (limit : Option Nat) :
    Nat → DState τ ε → List (DEvent τ ε) × Option (Except ε (List τ))
  | 0, _ => ([], none)
  | fuel + 1, st =>
    match iterate limit st with
    | (evs, .failed e) => (evs, some (.error e))
    | (evs, .finished outs) => (evs, some (.ok outs))
    | (evs, .next st') =>
      let r := dispatchRun limit fuel st'
      (evs ++ r.1, r.2)

/-- `dispatch_concurrent(stream, limit)`: run from the initial state (no
futures, no outputs, stream not yet exhausted). -/
def dispatch_concurrent {τ ε : Type} (script : List (StreamEntry τ ε))
    (limit : Option Nat) (fuel : Nat) : List (DEvent τ ε) × Option (Except ε (List τ)) :=
  dispatchRun limit fuel ⟨script, false, [], []⟩

/-- `p` is a prefix of `l`. -/
def IsPre {α : Type} (p l : List α) : Prop := ∃ t, p ++ t = l

/-- Number of admissions in an event list. -/
def admits {τ ε : Type} (evs : List (DEvent τ ε)) : Nat :=
  evs.countP fun ev => match ev with | .admitted _ => true | _ => false

/-- Number of completions in an event list. -/
def completes {τ ε : Type} (evs : List (DEvent τ ε)) : Nat :=
  evs.countP fun ev => match ev with | .complete _ => true | _ => false

/-! ### Orchestrator (src/lib.rs)

`multipart_upload` is embedded with the S3 client as an oracle assigning a
response to each remote call; the run records the trace of calls issued.
`bucket`, `key` and the `upload_id` string are constant throughout a run
and are omitted from the recorded calls; the oracle for `upload_part` may
depend on the part number, body and content length of the request.  The
compile-time constants `MIN_PART_SIZE`/`MAX_PART_SIZE` become parameters
`minP`/`maxP`; the source instantiates them with the constants defined
below. -/

/-- `MIN_PART_SIZE = 5 << 20`. -/
def MIN_PART_SIZE : Nat := 5 <<< 20

/-- `MAX_PART_SIZE = MIN_PART_SIZE * 2`. -/
def MAX_PART_SIZE : Nat := MIN_PART_SIZE * 2

/-- The remote collaborator, as response oracles for the three operations
`multipart_upload` uses.  (The S3 interface also offers
`abort_multipart_upload`; `multipart_upload` never calls it, so no oracle
is needed for it.) -/
structure MpuClient (ε : Type) where
  createResult : Except ε String
  uploadPartResult : Nat → List Chunk → Nat → Except ε String
  completeResult : List (Nat × String) → Except ε Unit

/-- A recorded remote call. -/
inductive S3Call where
  | createMultipartUpload
  | uploadPart (partNumber : Nat) (body : List Chunk) (contentLength : Nat)
  | completeMultipartUpload (parts : List (Nat × String))
  | abortMultipartUpload
deriving DecidableEq

/-- The error an oracle assigns to a call, if any. -/
def callError {ε : Type} (client : MpuClient ε) : S3Call → Option ε
  | .createMultipartUpload =>
    match client.createResult with | .error e => some e | .ok _ => none
  | .uploadPart n b l =>
    match client.uploadPartResult n b l with | .error e => some e | .ok _ => none
  | .completeMultipartUpload ps =>
    match client.completeResult ps with | .error e => some e | .ok _ => none
  | .abortMultipartUpload => none

/-- The mutable fields of the `MultipartUpload` struct (`parts`,
`part_number`; `part_number` starts at 1). -/
structure MpuState where
  parts : List (Nat × String)
  partNumber : Nat
deriving DecidableEq

/-- `MultipartUpload::upload`: issue `upload_part`, record the completed
part and advance `part_number` on success. -/
def uploadStep {ε : Type} (client : MpuClient ε) (st : MpuState)
    (body : List Chunk) (contentLength : Nat) : S3Call × Except ε MpuState :=
  (.uploadPart st.partNumber body contentLength,
    match client.uploadPartResult st.partNumber body contentLength with
    | .error e => .error e
    | .ok etag => .ok ⟨st.parts ++ [(st.partNumber, etag)], st.partNumber + 1⟩)

/-- The inner `while size + chunk.len() >= MIN_PART_SIZE` loop of
`multipart_upload`: slice `min(chunk.len, MAX - size)` bytes off the chunk
(`Bytes::split_to`), upload the accumulated buffers, loop.  Structured with
fuel so that it computes by kernel reduction; each iteration consumes at
least one byte of the chunk whenever `0 < minP ≤ maxP` (with `minP = 0`
the real loop can spin forever uploading empty parts, which a terminating
model cannot represent), so `uploadChunkLoop` supplies fuel that is always
sufficient under the configuration contract. -/
def uploadChunkLoopFuel {ε : Type} (client : MpuClient ε) (minP maxP : Nat) :
    Nat → MpuState → List Chunk → Nat → Chunk →
      List S3Call × Except ε (MpuState × List Chunk × Nat × Chunk)
  | 0, st, chunks, size, chunk => ([], .ok (st, chunks, size, chunk))
  | fuel + 1, st, chunks, size, chunk =>
    if minP ≤ size + chunk.length then
      let len := min chunk.length (maxP - size)
      let r := uploadStep client st (chunks ++ [chunk.take len]) (size + len)
      match r.2 with
      | .error e => ([r.1], .error e)
      | .ok st1 =>
        let r' := uploadChunkLoopFuel client minP maxP fuel st1 [] 0 (chunk.drop len)
        (r.1 :: r'.1, r'.2)
    else ([], .ok (st, chunks, size, chunk))

/-- The inner upload loop, with sufficient fuel. -/
def uploadChunkLoop {ε : Type} (client : MpuClient ε) (minP maxP : Nat)
    (st : MpuState) (chunks : List Chunk) (size : Nat) (chunk : Chunk) :
    List S3Call × Except ε (MpuState × List Chunk × Nat × Chunk) :=
  uploadChunkLoopFuel client minP maxP (chunk.length + 1) st chunks size chunk

/-- The `while let Some(chunk) = body.next()` loop of `multipart_upload`,
followed by the unconditional final `upload` and `complete`. -/
def mpuLoop {ε : Type} (client : MpuClient ε) (minP maxP : Nat) :
    MpuState → List Chunk → Nat → List (Except ε Chunk) →
      List S3Call × Except ε Unit
  | st, chunks, size, [] =>
    let r := uploadStep client st chunks size
    match r.2 with
    | .error e => ([r.1], .error e)
    | .ok st1 =>
      ([r.1, .completeMultipartUpload st1.parts], client.completeResult st1.parts)
  | _, _, _, .error e :: _ => ([], .error e)
  | st, chunks, size, .ok chunk :: rest =>
    let r := uploadChunkLoop client minP maxP st chunks size chunk
    match r.2 with
    | .error e => (r.1, .error e)
    | .ok (st1, chunks1, size1, chunk1) =>
      let acc :=
        if chunk1 = [] then (chunks1, size1)
        else (chunks1 ++ [chunk1], size1 + chunk1.length)
      let r' := mpuLoop client minP maxP st1 acc.1 acc.2 rest
      (r.1 ++ r'.1, r'.2)

/-- `multipart_upload(client, body, bucket, key)`: create the upload, run
the splitting/upload loop, complete.  Returns the trace of remote calls
and the overall result. -/
def multipart_upload {ε : Type} (client : MpuClient ε) (minP maxP : Nat)
    (body : List (Except ε Chunk)) : List S3Call × Except ε Unit :=
  match client.createResult with
  | .error e => ([.createMultipartUpload], .error e)
  | .ok _ =>
    let r := mpuLoop client minP maxP ⟨[], 1⟩ [] 0 body
    (.createMultipartUpload :: r.1, r.2)

/-- A client whose `upload_part` always fails with error `7` (used to
exercise the failure path of `multipart_upload` on concrete inputs). -/
def failingUploadClient : MpuClient Nat :=
  ⟨.ok "uid", fun _ _ _ => .error 7, fun _ => .ok ()⟩

/-- A client for which every remote call succeeds. -/
def okClient : MpuClient Nat :=
  ⟨.ok "uid", fun _ _ _ => .ok "etag", fun _ => .ok ()⟩

lemma push_part_spec (st : Inner) (c : Chunk) :
    (st.push_part c).remaining = st.remaining ∧
    (st.push_part c).part_size_min = st.part_size_min ∧
    (st.push_part c).part_size_max = st.part_size_max ∧
    (st.push_part c).part_number = st.part_number ∧
    (st.push_part c).part_body.flatten = st.part_body.flatten ++ c ∧
    (st.push_part c).part_content_length = st.part_content_length + c.length ∧
    (st.push_part c).part_content_md5 = st.part_content_md5 ++ c := by
  unfold Inner.push_part
  split
  · next h => subst h; simp
  · simp

lemma push_part_wf (st : Inner) (c : Chunk) (h : WFBuf st) : WFBuf (st.push_part c) := by
  obtain ⟨h1, h2, h3⟩ := h
  unfold Inner.push_part
  split
  · exact ⟨h1, h2, h3⟩
  · next hc =>
    refine ⟨?_, ?_, ?_⟩
    · simp [h1]
    · simp [h2]
    · intro x hx
      rcases List.mem_append.1 hx with hx | hx
      · exact h3 x hx
      · simp only [List.mem_singleton] at hx
        subst hx; exact hc

lemma pop_some_spec {st : Inner} {p : Part} {st' : Inner} (hp : st.pop = (some p, st')) :
    Part.bytes p ++ stateBytes st' = stateBytes st ∧
    st'.size + p.content_length = st.size ∧
    st.part_size_min ≤ st.size ∧
    st'.part_body = [] ∧ st'.part_content_length = 0 ∧ st'.part_content_md5 = [] ∧
    st'.part_size_min = st.part_size_min ∧ st'.part_size_max = st.part_size_max ∧
    p.part_number = st.part_number + 1 ∧ st'.part_number = st.part_number + 1 ∧
    (WFBuf st → Part.WF p) ∧
    (st.part_content_length ≤ st.part_size_max → st.part_size_min ≤ st.part_size_max →
      st.part_size_min ≤ p.content_length ∧ p.content_length ≤ st.part_size_max) := by
  unfold Inner.pop at hp
  split at hp
  case isFalse => simp at hp
  case isTrue hcond =>
    dsimp only at hp
    set n := min st.remaining.length (st.part_size_max - st.part_content_length) with hn
    rw [Prod.mk.injEq, Option.some.injEq] at hp
    obtain ⟨hp1, hp2⟩ := hp
    subst hp1; subst hp2
    have hmin1 : n ≤ st.remaining.length := by rw [hn]; exact min_le_left _ _
    have hmin2 : n ≤ st.part_size_max - st.part_content_length := by
      rw [hn]; exact min_le_right _ _
    obtain ⟨e1, e2, e3, e4, e5, e6, e7⟩ :=
      push_part_spec { st with remaining := st.remaining.drop n } (st.remaining.take n)
    dsimp only at e1 e2 e3 e4 e5 e6 e7
    have htl : (st.remaining.take n).length = n := by rw [List.length_take]; omega
    rw [htl] at e6
    refine ⟨?_, ?_, hcond, rfl, rfl, rfl, ?_, ?_, ?_, ?_, ?_, ?_⟩
    · unfold Part.bytes stateBytes
      dsimp only
      rw [e5, e1]
      simp only [List.flatten_nil, List.nil_append, List.append_assoc]
      rw [List.take_append_drop]
    · unfold Inner.size
      dsimp only
      rw [e1, e6, List.length_drop]
      omega
    · exact e2
    · exact e3
    · dsimp only
      rw [e4]
    · dsimp only
      rw [e4]
    · intro hwf
      exact push_part_wf { st with remaining := st.remaining.drop n } (st.remaining.take n) hwf
    · intro hlen hmx
      dsimp only
      rw [e6]
      omega

lemma pop_none_spec {st st₂ : Inner} (hp : st.pop = (none, st₂)) :
    st₂ = st ∧ st.size < st.part_size_min := by
  unfold Inner.pop at hp
  split at hp
  case isTrue => simp at hp
  case isFalse hcond =>
    rw [Prod.mk.injEq] at hp
    refine ⟨hp.2.symm, ?_⟩
    unfold Inner.size
    omega

lemma pop_none_of_small {st : Inner} (h : st.size < st.part_size_min) :
    st.pop = (none, st) := by
  unfold Inner.pop
  rw [if_neg]
  unfold Inner.size at h
  omega

lemma finish_none_spec {st : Inner} (h : st.finish = none) : stateBytes st = [] := by
  unfold Inner.finish at h
  dsimp only at h
  split at h
  case isFalse => simp at h
  case isTrue hb =>
    obtain ⟨_, _, _, _, e5, _, _⟩ := push_part_spec { st with remaining := [] } st.remaining
    dsimp only at e5
    rw [hb] at e5
    unfold stateBytes
    simpa using e5.symm

lemma finish_some_spec {st : Inner} {p : Part} (h : st.finish = some p) :
    Part.bytes p = stateBytes st ∧ p.part_number = st.part_number + 1 ∧
    (WFBuf st → Part.WF p) := by
  unfold Inner.finish at h
  dsimp only at h
  split at h
  case isTrue => simp at h
  case isFalse hb =>
    rw [Option.some.injEq] at h
    subst h
    obtain ⟨_, _, _, e4, e5, _, _⟩ := push_part_spec { st with remaining := [] } st.remaining
    dsimp only at e4 e5
    refine ⟨?_, ?_, ?_⟩
    · unfold Part.bytes stateBytes
      dsimp only
      exact e5
    · dsimp only
      rw [e4]
    · intro hwf
      exact push_part_wf { st with remaining := [] } st.remaining hwf

lemma push_spec (st : Inner) (c : Chunk) :
    stateBytes (st.push c) = stateBytes st ++ c ∧
    (st.push c).part_size_min = st.part_size_min ∧
    (st.push c).part_size_max = st.part_size_max ∧
    (st.push c).part_number = st.part_number ∧
    (st.push c).part_content_length = st.part_content_length + st.remaining.length ∧
    (WFBuf st → WFBuf (st.push c)) := by
  unfold Inner.push
  obtain ⟨e1, e2, e3, e4, e5, e6, e7⟩ :=
    push_part_spec { st with remaining := c } st.remaining
  dsimp only at e1 e2 e3 e4 e5 e6 e7
  refine ⟨?_, e2, e3, e4, e6, ?_⟩
  · unfold stateBytes
    rw [e5, e1, List.append_assoc]
  · intro hwf
    exact push_part_wf { st with remaining := c } st.remaining hwf

lemma popAllFuel_bytes (fuel : Nat) : ∀ st : Inner,
    partsBytes (popAllFuel fuel st).1 ++ stateBytes (popAllFuel fuel st).2 = stateBytes st := by
  induction fuel with
  | zero => intro st; simp [popAllFuel, partsBytes]
  | succ fuel ih =>
    intro st
    rcases hp : st.pop with ⟨o, st'⟩
    cases o with
    | none => simp [popAllFuel, hp, partsBytes]
    | some part =>
      simp only [popAllFuel, hp]
      obtain ⟨hbytes, _⟩ := pop_some_spec hp
      rw [show partsBytes (part :: (popAllFuel fuel st').1) =
          Part.bytes part ++ partsBytes (popAllFuel fuel st').1 by
        unfold partsBytes; simp]
      rw [List.append_assoc, ih st', hbytes]

lemma popAllFuel_numbers (fuel : Nat) : ∀ st : Inner,
    (popAllFuel fuel st).1.map Part.part_number =
      List.range' (st.part_number + 1) (popAllFuel fuel st).1.length ∧
    (popAllFuel fuel st).2.part_number = st.part_number + (popAllFuel fuel st).1.length := by
  induction fuel with
  | zero => intro st; simp [popAllFuel]
  | succ fuel ih =>
    intro st
    rcases hp : st.pop with ⟨o, st'⟩
    cases o with
    | none => simp [popAllFuel, hp]
    | some part =>
      simp only [popAllFuel, hp, List.map_cons, List.length_cons]
      obtain ⟨_, _, _, _, _, _, _, _, hpn, hpn', _, _⟩ := pop_some_spec hp
      obtain ⟨ihm, ihn⟩ := ih st'
      constructor
      · rw [List.range'_succ, hpn, ihm, hpn']
      · rw [ihn, hpn']
        omega

lemma popAllFuel_wf (fuel : Nat) : ∀ st : Inner, WFBuf st →
    (∀ p ∈ (popAllFuel fuel st).1, Part.WF p) ∧ WFBuf (popAllFuel fuel st).2 := by
  induction fuel with
  | zero => intro st h; simp [popAllFuel]; exact h
  | succ fuel ih =>
    intro st h
    rcases hp : st.pop with ⟨o, st'⟩
    cases o with
    | none => simp only [popAllFuel, hp]; exact ⟨by simp, h⟩
    | some part =>
      simp only [popAllFuel, hp]
      obtain ⟨_, _, _, w1, w2, w3, _, _, _, _, hwfp, _⟩ := pop_some_spec hp
      have hst' : WFBuf st' := by
        unfold WFBuf
        rw [w1, w2, w3]
        simp
      obtain ⟨ih1, ih2⟩ := ih st' hst'
      refine ⟨?_, ih2⟩
      intro p hpmem
      rcases List.mem_cons.1 hpmem with rfl | hpmem
      · exact hwfp h
      · exact ih1 p hpmem

lemma popAllFuel_sizes (fuel : Nat) : ∀ st : Inner,
    (popAllFuel fuel st).2.part_size_min = st.part_size_min ∧
    (popAllFuel fuel st).2.part_size_max = st.part_size_max ∧
    ((popAllFuel fuel st).2.part_content_length = st.part_content_length ∨
      (popAllFuel fuel st).2.part_content_length = 0) := by
  induction fuel with
  | zero => intro st; simp [popAllFuel]
  | succ fuel ih =>
    intro st
    rcases hp : st.pop with ⟨o, st'⟩
    cases o with
    | none => simp [popAllFuel, hp]
    | some part =>
      simp only [popAllFuel, hp]
      obtain ⟨_, _, _, _, w2, _, s1, s2, _, _, _, _⟩ := pop_some_spec hp
      obtain ⟨ih1, ih2, ih3⟩ := ih st'
      refine ⟨by rw [ih1, s1], by rw [ih2, s2], ?_⟩
      rcases ih3 with h | h
      · right; rw [h, w2]
      · right; exact h

lemma popAllFuel_bounds (fuel : Nat) : ∀ st : Inner,
    st.part_size_min ≤ st.part_size_max →
    st.part_content_length ≤ st.part_size_max →
    ∀ p ∈ (popAllFuel fuel st).1,
      st.part_size_min ≤ p.content_length ∧ p.content_length ≤ st.part_size_max := by
  induction fuel with
  | zero => intro st _ _ p hp; simp [popAllFuel] at hp
  | succ fuel ih =>
    intro st hmx hlen p hpmem
    rcases hp : st.pop with ⟨o, st'⟩
    cases o with
    | none => rw [popAllFuel, hp] at hpmem; simp at hpmem
    | some part =>
      rw [popAllFuel, hp] at hpmem
      obtain ⟨_, _, _, _, w2, _, s1, s2, _, _, _, hbound⟩ := pop_some_spec hp
      rcases List.mem_cons.1 hpmem with rfl | hpmem
      · exact hbound hlen hmx
      · have := ih st' (by rw [s1, s2]; exact hmx) (by rw [w2, s2]; exact Nat.zero_le _) p hpmem
        rw [s1, s2] at this
        exact this

/-- With sufficient fuel and a valid configuration, the pop loop runs until
`pop` fails: the final state holds fewer than `min` bytes. -/
lemma popAllFuel_post (fuel : Nat) : ∀ st : Inner,
    st.size < fuel →
    0 < st.part_size_min →
    st.part_size_min ≤ st.part_size_max →
    st.part_content_length ≤ st.part_size_max →
    (popAllFuel fuel st).2.size < (popAllFuel fuel st).2.part_size_min := by
  induction fuel with
  | zero => intro st h; omega
  | succ fuel ih =>
    intro st hfuel hmn hmx hlen
    rcases hp : st.pop with ⟨o, st'⟩
    cases o with
    | none =>
      obtain ⟨rfl, hsmall⟩ := pop_none_spec hp
      simp only [popAllFuel, hp]
      exact hsmall
    | some part =>
      simp only [popAllFuel, hp]
      obtain ⟨_, hsize, _, _, w2, _, s1, s2, _, _, _, hbound⟩ := pop_some_spec hp
      obtain ⟨hb1, _⟩ := hbound hlen hmx
      exact ih st' (by omega) (by rw [s1]; exact hmn) (by rw [s1, s2]; exact hmx)
        (by rw [w2, s2]; exact Nat.zero_le _)

lemma popAll_bytes (st : Inner) :
    partsBytes (popAll st).1 ++ stateBytes (popAll st).2 = stateBytes st :=
  popAllFuel_bytes _ st

lemma popAll_numbers (st : Inner) :
    (popAll st).1.map Part.part_number =
      List.range' (st.part_number + 1) (popAll st).1.length ∧
    (popAll st).2.part_number = st.part_number + (popAll st).1.length :=
  popAllFuel_numbers _ st

lemma popAll_wf {st : Inner} (h : WFBuf st) :
    (∀ p ∈ (popAll st).1, Part.WF p) ∧ WFBuf (popAll st).2 :=
  popAllFuel_wf _ st h

lemma popAll_sizes (st : Inner) :
    (popAll st).2.part_size_min = st.part_size_min ∧
    (popAll st).2.part_size_max = st.part_size_max ∧
    ((popAll st).2.part_content_length = st.part_content_length ∨
      (popAll st).2.part_content_length = 0) :=
  popAllFuel_sizes _ st

lemma popAll_bounds {st : Inner} (hmx : st.part_size_min ≤ st.part_size_max)
    (hlen : st.part_content_length ≤ st.part_size_max) :
    ∀ p ∈ (popAll st).1,
      st.part_size_min ≤ p.content_length ∧ p.content_length ≤ st.part_size_max :=
  popAllFuel_bounds _ st hmx hlen

lemma popAll_post {st : Inner} (hmn : 0 < st.part_size_min)
    (hmx : st.part_size_min ≤ st.part_size_max)
    (hlen : st.part_content_length ≤ st.part_size_max) :
    (popAll st).2.size < (popAll st).2.part_size_min :=
  popAllFuel_post _ st (Nat.lt_succ_self _) hmn hmx hlen

lemma okParts_append {ε : Type} (a b : List (Except ε Part)) :
    okParts (a ++ b) = okParts a ++ okParts b := by
  unfold okParts
  rw [List.filterMap_append]

lemma okParts_map_ok {ε : Type} (ps : List Part) :
    okParts (ε := ε) (ps.map .ok) = ps := by
  induction ps with
  | nil => rfl
  | cons p ps ih => simpa [okParts] using ih

lemma okParts_cons_error {ε : Type} (e : ε) (l : List (Except ε Part)) :
    okParts (.error e :: l) = okParts l := by
  simp [okParts]

lemma okParts_opt {ε : Type} (o : Option Part) :
    okParts (ε := ε) ((o.map .ok).toList) = o.toList := by
  cases o <;> simp [okParts]

lemma okChunks_cons_ok {ε : Type} (c : Chunk) (l : List (Except ε Chunk)) :
    okChunks (.ok c :: l) = c :: okChunks l := by
  simp [okChunks]

lemma okChunks_cons_error {ε : Type} (e : ε) (l : List (Except ε Chunk)) :
    okChunks (.error e :: l) = okChunks l := by
  simp [okChunks]

lemma partsBytes_append (a b : List Part) :
    partsBytes (a ++ b) = partsBytes a ++ partsBytes b := by
  unfold partsBytes
  rw [List.map_append, List.flatten_append]

/-- Byte conservation of a full run: the parts emitted carry exactly the
bytes already buffered plus the bytes of all successfully pulled chunks. -/
lemma runSplitAux_bytes {ε : Type} :
    ∀ (items : List (Except ε Chunk)) (st : Inner),
      partsBytes (okParts (runSplitAux st items)) = stateBytes st ++ (okChunks items).flatten := by
  intro items
  induction items with
  | nil =>
    intro st
    rw [runSplitAux, okParts_append, okParts_map_ok, okParts_opt, partsBytes_append]
    rcases hf : (popAll st).2.finish with _ | p
    · have h0 := finish_none_spec hf
      have hb := popAll_bytes st
      rw [h0] at hb
      simp only [List.append_nil] at hb
      simpa [partsBytes, okChunks] using hb
    · obtain ⟨hb, _, _⟩ := finish_some_spec hf
      have hall := popAll_bytes st
      simp only [Option.toList_some]
      rw [show partsBytes [p] = Part.bytes p by simp [partsBytes]]
      rw [hb, hall]
      simp [okChunks]
  | cons item rest ih =>
    intro st
    cases item with
    | ok c =>
      rw [runSplitAux, okParts_append, okParts_map_ok, partsBytes_append, ih]
      obtain ⟨hpush, _⟩ := push_spec (popAll st).2 c
      rw [hpush, okChunks_cons_ok]
      have hall := popAll_bytes st
      rw [List.flatten_cons, ← List.append_assoc, ← List.append_assoc, hall]
      rw [List.append_assoc]
    | error e =>
      rw [runSplitAux, okParts_append, okParts_map_ok, okParts_cons_error, partsBytes_append, ih]
      rw [okChunks_cons_error, ← List.append_assoc, popAll_bytes st]

/-- Errors in the output only come from errors in the source. -/
lemma runSplitAux_errors {ε : Type} :
    ∀ (items : List (Except ε Chunk)) (st : Inner) (e : ε),
      .error e ∈ runSplitAux st items → .error e ∈ items := by
  intro items
  induction items with
  | nil =>
    intro st e hmem
    rw [runSplitAux] at hmem
    rcases List.mem_append.1 hmem with h | h
    · rcases List.mem_map.1 h with ⟨p, _, hpe⟩
      exact absurd hpe (by simp)
    · rcases hf : (popAll st).2.finish with _ | p <;> rw [hf] at h <;> simp at h
  | cons item rest ih =>
    intro st e hmem
    cases item with
    | ok c =>
      rw [runSplitAux] at hmem
      rcases List.mem_append.1 hmem with h | h
      · rcases List.mem_map.1 h with ⟨p, _, hpe⟩
        exact absurd hpe (by simp)
      · exact List.mem_cons_of_mem _ (ih _ e h)
    | error e' =>
      rw [runSplitAux] at hmem
      rcases List.mem_append.1 hmem with h | h
      · rcases List.mem_map.1 h with ⟨p, _, hpe⟩
        exact absurd hpe (by simp)
      · rcases List.mem_cons.1 h with h | h
        · have he : e = e' := by injection h
          subst he
          exact List.mem_cons_self _ _
        · exact List.mem_cons_of_mem _ (ih _ e h)

lemma range'_append_one (s m n : Nat) :
    List.range' s m ++ List.range' (s + m) n = List.range' s (m + n) := by
  simp [Nat.add_comm]

/-- Part numbers of a full run: consecutive, starting after the state's
current counter. -/
lemma runSplitAux_numbers {ε : Type} :
    ∀ (items : List (Except ε Chunk)) (st : Inner),
      (okParts (runSplitAux st items)).map Part.part_number =
        List.range' (st.part_number + 1) (okParts (runSplitAux st items)).length := by
  intro items
  induction items with
  | nil =>
    intro st
    rw [runSplitAux, okParts_append, okParts_map_ok, okParts_opt]
    obtain ⟨hA, hpn⟩ := popAll_numbers st
    rcases hf : (popAll st).2.finish with _ | p
    · simpa using hA
    · obtain ⟨_, hfn, _⟩ := finish_some_spec hf
      rw [List.map_append, hA]
      simp only [Option.toList_some, List.map_cons, List.map_nil, List.length_append,
        List.length_cons, List.length_nil]
      rw [hfn, hpn]
      have : List.range' (st.part_number + 1) (popAll st).1.length ++
          List.range' (st.part_number + 1 + (popAll st).1.length) 1 =
          List.range' (st.part_number + 1) ((popAll st).1.length + 1) :=
        range'_append_one _ _ _
      simp only [List.range'_one] at this
      rw [show st.part_number + (popAll st).1.length + 1 =
        st.part_number + 1 + (popAll st).1.length by omega]
      exact this.symm ▸ rfl
  | cons item rest ih =>
    intro st
    cases item with
    | ok c =>
      rw [runSplitAux, okParts_append, okParts_map_ok]
      obtain ⟨hA, hpn⟩ := popAll_numbers st
      obtain ⟨_, _, _, hpushn, _⟩ := push_spec (popAll st).2 c
      have ihr := ih ((popAll st).2.push c)
      rw [List.map_append, hA, ihr, hpushn, hpn, List.length_append]
      rw [show st.part_number + (popAll st).1.length + 1 =
        st.part_number + 1 + (popAll st).1.length by omega]
      exact range'_append_one _ _ _
    | error e =>
      rw [runSplitAux, okParts_append, okParts_map_ok, okParts_cons_error]
      obtain ⟨hA, hpn⟩ := popAll_numbers st
      have ihr := ih (popAll st).2
      rw [List.map_append, hA, ihr, hpn, List.length_append]
      rw [show st.part_number + (popAll st).1.length + 1 =
        st.part_number + 1 + (popAll st).1.length by omega]
      exact range'_append_one _ _ _

/-- Every part emitted by a full run from a well-formed state is
well-formed. -/
lemma runSplitAux_wf {ε : Type} :
    ∀ (items : List (Except ε Chunk)) (st : Inner), WFBuf st →
      ∀ p ∈ okParts (runSplitAux st items), Part.WF p := by
  intro items
  induction items with
  | nil =>
    intro st hst p hp
    rw [runSplitAux, okParts_append, okParts_map_ok, okParts_opt] at hp
    obtain ⟨hA, hres⟩ := popAll_wf hst
    rcases List.mem_append.1 hp with h | h
    · exact hA p h
    · rcases hf : (popAll st).2.finish with _ | q <;> rw [hf] at h
      · simp at h
      · obtain ⟨_, _, hq⟩ := finish_some_spec hf
        simp only [Option.toList_some, List.mem_singleton] at h
        subst h
        exact hq hres
  | cons item rest ih =>
    intro st hst p hp
    cases item with
    | ok c =>
      rw [runSplitAux, okParts_append, okParts_map_ok] at hp
      obtain ⟨hA, hres⟩ := popAll_wf hst
      rcases List.mem_append.1 hp with h | h
      · exact hA p h
      · obtain ⟨_, _, _, _, _, hpw⟩ := push_spec (popAll st).2 c
        exact ih _ (hpw hres) p h
    | error e =>
      rw [runSplitAux, okParts_append, okParts_map_ok, okParts_cons_error] at hp
      obtain ⟨hA, hres⟩ := popAll_wf hst
      rcases List.mem_append.1 hp with h | h
      · exact hA p h
      · exact ih _ hres p h

/-- Structure of a full run, for the size-bound claims: the emitted parts
split into a list of `pop`-completed parts, all within `[min, max]`, and at
most one trailing part (the one produced by `finish`). -/
lemma runSplitAux_decomp {ε : Type} :
    ∀ (items : List (Except ε Chunk)) (st : Inner),
      0 < st.part_size_min →
      st.part_size_min ≤ st.part_size_max →
      st.part_content_length ≤ st.part_size_max →
      ∃ (main : List Part) (tail : Option Part),
        okParts (runSplitAux st items) = main ++ tail.toList ∧
        ∀ p ∈ main,
          st.part_size_min ≤ p.content_length ∧ p.content_length ≤ st.part_size_max := by
  intro items
  induction items with
  | nil =>
    intro st hmn hmx hlen
    rw [runSplitAux, okParts_append, okParts_map_ok, okParts_opt]
    exact ⟨(popAll st).1, (popAll st).2.finish, rfl, popAll_bounds hmx hlen⟩
  | cons item rest ih =>
    intro st hmn hmx hlen
    obtain ⟨s1, s2, _⟩ := popAll_sizes st
    have hpost := popAll_post hmn hmx hlen
    cases item with
    | ok c =>
      rw [runSplitAux, okParts_append, okParts_map_ok]
      obtain ⟨_, p1, p2, _, p4, _⟩ := push_spec (popAll st).2 c
      have hrec := ih ((popAll st).2.push c)
        (by rw [p1, s1]; exact hmn)
        (by rw [p1, p2, s1, s2]; exact hmx)
        (by rw [p4, p2, s2]; unfold Inner.size at hpost; rw [s1] at hpost; omega)
      obtain ⟨main, tail, hdec, hbnd⟩ := hrec
      refine ⟨(popAll st).1 ++ main, tail, by rw [hdec, List.append_assoc], ?_⟩
      intro p hp
      rcases List.mem_append.1 hp with h | h
      · exact popAll_bounds hmx hlen p h
      · have := hbnd p h
        rw [p1, p2, s1, s2] at this
        exact this
    | error e =>
      rw [runSplitAux, okParts_append, okParts_map_ok, okParts_cons_error]
      have hrec := ih (popAll st).2
        (by rw [s1]; exact hmn)
        (by rw [s1, s2]; exact hmx)
        (by rw [s2]; unfold Inner.size at hpost; rw [s1] at hpost; omega)
      obtain ⟨main, tail, hdec, hbnd⟩ := hrec
      refine ⟨(popAll st).1 ++ main, tail, by rw [hdec, List.append_assoc], ?_⟩
      intro p hp
      rcases List.mem_append.1 hp with h | h
      · exact popAll_bounds hmx hlen p h
      · have := hbnd p h
        rw [s1, s2] at this
        exact this

lemma okChunks_map_ok {ε : Type} (chunks : List Chunk) :
    okChunks (ε := ε) (chunks.map .ok) = chunks := by
  induction chunks with
  | nil => rfl
  | cons c cs ih => simpa [okChunks] using ih

lemma WFBuf_new (mn mx : Nat) : WFBuf (Inner.new mn mx) := by
  refine ⟨rfl, rfl, ?_⟩
  intro c hc
  simp [Inner.new] at hc

lemma stateBytes_new (mn mx : Nat) : stateBytes (Inner.new mn mx) = [] := rfl

/-- C1: for every error-free input chunk sequence, the split stream yields
only parts (no errors) and the concatenation of the emitted part bodies, in
emission order, is exactly the concatenation of the input chunks. -/
theorem split_roundtrip {ε : Type} (mn mx : Nat) (_hmn : 0 < mn) (_hmx : mn ≤ mx)
    (chunks : List Chunk) :
    (∀ x ∈ split (ε := ε) (chunks.map .ok) mn mx, ∃ p, x = .ok p) ∧
    partsBytes (okParts (split (ε := ε) (chunks.map .ok) mn mx)) = chunks.flatten := by
  constructor
  · intro x hx
    cases x with
    | ok p => exact ⟨p, rfl⟩
    | error e =>
      have hmem := runSplitAux_errors (chunks.map .ok) (Inner.new mn mx) e hx
      rcases List.mem_map.1 hmem with ⟨c, _, hc⟩
      exact absurd hc (by simp)
  · have h := runSplitAux_bytes (ε := ε) (chunks.map .ok) (Inner.new mn mx)
    unfold split
    rw [h, stateBytes_new, okChunks_map_ok, List.nil_append]

theorem split_roundtrip_witness :
    (0 < 4 ∧ 4 ≤ 8) ∧
    ((∀ x ∈ split (ε := Nat) ([[9, 8, 7, 6, 5]].map .ok) 4 8, ∃ p, x = .ok p) ∧
      partsBytes (okParts (split (ε := Nat) ([[9, 8, 7, 6, 5]].map .ok) 4 8)) =
        [[9, 8, 7, 6, 5]].flatten) :=
  ⟨⟨by decide, by decide⟩, split_roundtrip 4 8 (by decide) (by decide) [[9, 8, 7, 6, 5]]⟩

lemma get_bounds_of_decomp {mn mx : Nat} {L main : List Part} {tail : Option Part}
    (hdec : L = main ++ tail.toList)
    (hbnd : ∀ p ∈ main, mn ≤ p.content_length ∧ p.content_length ≤ mx)
    (i : Nat) (hi : i + 1 < L.length) :
    mn ≤ (L.get ⟨i, Nat.lt_of_succ_lt hi⟩).content_length ∧
    (L.get ⟨i, Nat.lt_of_succ_lt hi⟩).content_length ≤ mx := by
  subst hdec
  have htail : tail.toList.length ≤ 1 := by cases tail <;> simp
  have hlt : i < main.length := by
    rw [List.length_append] at hi
    omega
  have hget : (main ++ tail.toList).get ⟨i, Nat.lt_of_succ_lt hi⟩ = main.get ⟨i, hlt⟩ := by
    simp [List.get_eq_getElem, List.getElem_append_left hlt]
  rw [hget]
  exact hbnd _ (List.get_mem main i hlt)

/-- C4: for every input and configured range `[mn, mx]` with
`0 < mn ≤ mx`, every emitted part other than the last has
`mn ≤ content_length ≤ mx`. -/
theorem split_part_size_bounds {ε : Type} (mn mx : Nat) (hmn : 0 < mn) (hmx : mn ≤ mx)
    (items : List (Except ε Chunk)) (i : Nat)
    (hi : i + 1 < (okParts (split items mn mx)).length) :
    mn ≤ ((okParts (split items mn mx)).get ⟨i, Nat.lt_of_succ_lt hi⟩).content_length ∧
    ((okParts (split items mn mx)).get ⟨i, Nat.lt_of_succ_lt hi⟩).content_length ≤ mx := by
  obtain ⟨main, tail, hdec, hbnd⟩ :=
    runSplitAux_decomp items (Inner.new mn mx) hmn hmx (Nat.zero_le _)
  exact get_bounds_of_decomp hdec (by simpa [Inner.new] using hbnd) i hi

theorem split_part_size_bounds_witness :
    (0 < 4 ∧ 4 ≤ 8 ∧
      0 + 1 < (okParts (split (ε := Nat) [.ok [0, 1, 2, 3, 4, 5, 6, 7, 8, 9]] 4 8)).length) ∧
    (4 ≤ ((okParts (split (ε := Nat) [.ok [0, 1, 2, 3, 4, 5, 6, 7, 8, 9]] 4 8)).get
        ⟨0, by decide⟩).content_length ∧
      ((okParts (split (ε := Nat) [.ok [0, 1, 2, 3, 4, 5, 6, 7, 8, 9]] 4 8)).get
        ⟨0, by decide⟩).content_length ≤ 8) :=
  ⟨⟨by decide, by decide, by decide⟩,
    split_part_size_bounds 4 8 (by decide) (by decide) [.ok [0, 1, 2, 3, 4, 5, 6, 7, 8, 9]] 0
      (by decide)⟩

/-- C7: the `part_number` values of the emitted parts are exactly
`1, 2, ..., N` in emission order (gap-free, repetition-free). -/
theorem split_part_numbers {ε : Type} (mn mx : Nat) (_hmn : 0 < mn) (_hmx : mn ≤ mx)
    (items : List (Except ε Chunk)) :
    (okParts (split items mn mx)).map Part.part_number =
      List.range' 1 (okParts (split items mn mx)).length := by
  have h := runSplitAux_numbers items (Inner.new mn mx)
  unfold split
  exact h

theorem split_part_numbers_witness :
    (0 < 4 ∧ 4 ≤ 8) ∧
    (okParts (split (ε := Nat) [.ok [0, 1, 2, 3, 4, 5, 6, 7, 8, 9], .ok [5, 5]] 4 8)).map
        Part.part_number =
      List.range' 1
        (okParts (split (ε := Nat) [.ok [0, 1, 2, 3, 4, 5, 6, 7, 8, 9], .ok [5, 5]] 4 8)).length :=
  ⟨⟨by decide, by decide⟩,
    split_part_numbers 4 8 (by decide) (by decide) [.ok [0, 1, 2, 3, 4, 5, 6, 7, 8, 9], .ok [5, 5]]⟩

/-- Every emitted part of a `split` run is well-formed (shared helper for
the digest and well-formedness claims). -/
lemma split_parts_wf {ε : Type} (mn mx : Nat) (items : List (Except ε Chunk)) :
    ∀ p ∈ okParts (split items mn mx), Part.WF p :=
  runSplitAux_wf items (Inner.new mn mx) (WFBuf_new mn mx)

/-- C8: each emitted part's digest is computed over exactly that part's
bytes — the concatenation of its body chunks, in order (the `Md5` hasher
is modelled by the byte sequence it absorbed, so this says the absorbed
sequence equals the part's bytes). -/
theorem split_md5_exact {ε : Type} (mn mx : Nat) (_hmn : 0 < mn) (_hmx : mn ≤ mx)
    (items : List (Except ε Chunk)) (p : Part) (hp : p ∈ okParts (split items mn mx)) :
    p.content_md5 = p.body.flatten :=
  (split_parts_wf mn mx items p hp).1

theorem split_md5_exact_witness :
    (0 < 4 ∧ 4 ≤ 8 ∧
      (⟨[[3, 1], [4, 1, 5, 9]], 6, [3, 1, 4, 1, 5, 9], 1⟩ : Part) ∈
        okParts (split (ε := Nat) [.ok [3, 1], .ok [4, 1, 5, 9]] 4 8)) ∧
    (⟨[[3, 1], [4, 1, 5, 9]], 6, [3, 1, 4, 1, 5, 9], 1⟩ : Part).content_md5 =
      (⟨[[3, 1], [4, 1, 5, 9]], 6, [3, 1, 4, 1, 5, 9], 1⟩ : Part).body.flatten :=
  ⟨⟨by decide, by decide, by decide⟩,
    split_md5_exact (ε := Nat) 4 8 (by decide) (by decide) [.ok [3, 1], .ok [4, 1, 5, 9]]
      ⟨[[3, 1], [4, 1, 5, 9]], 6, [3, 1, 4, 1, 5, 9], 1⟩ (by decide)⟩

/-- C10: every emitted part is well-formed: `content_length` is the sum of
its body chunk lengths, and no body chunk is empty. -/
theorem split_part_wellformed {ε : Type} (mn mx : Nat) (_hmn : 0 < mn) (_hmx : mn ≤ mx)
    (items : List (Except ε Chunk)) (p : Part) (hp : p ∈ okParts (split items mn mx)) :
    p.content_length = (p.body.map List.length).sum ∧ ∀ c ∈ p.body, c ≠ [] :=
  (split_parts_wf mn mx items p hp).2

theorem split_part_wellformed_witness :
    (0 < 4 ∧ 4 ≤ 8 ∧
      (⟨[[3, 1], [4, 1, 5, 9]], 6, [3, 1, 4, 1, 5, 9], 1⟩ : Part) ∈
        okParts (split (ε := Nat) [.ok [], .ok [3, 1], .ok [], .ok [4, 1, 5, 9]] 4 8)) ∧
    ((⟨[[3, 1], [4, 1, 5, 9]], 6, [3, 1, 4, 1, 5, 9], 1⟩ : Part).content_length =
      ((⟨[[3, 1], [4, 1, 5, 9]], 6, [3, 1, 4, 1, 5, 9], 1⟩ : Part).body.map List.length).sum ∧
      ∀ c ∈ (⟨[[3, 1], [4, 1, 5, 9]], 6, [3, 1, 4, 1, 5, 9], 1⟩ : Part).body, c ≠ []) :=
  ⟨⟨by decide, by decide, by decide⟩,
    split_part_wellformed (ε := Nat) 4 8 (by decide) (by decide)
      [.ok [], .ok [3, 1], .ok [], .ok [4, 1, 5, 9]]
      ⟨[[3, 1], [4, 1, 5, 9]], 6, [3, 1, 4, 1, 5, 9], 1⟩ (by decide)⟩

/-- C9, counterexample: with range `[4, 8]`, after the source yields
`[1, 2]` and then an error, the stream emits the error immediately — but
the buffered bytes `[1, 2]` are *not* discarded: polling past the error
(here, to end of source) still produces a part containing exactly those
bytes, contradicting "the unfinished buffer is discarded (no part is ever
produced from it)". -/
theorem split_error_cex :
    split (ε := Nat) [.ok [1, 2], .error 0] 4 8 =
      [.error 0, .ok ⟨[[1, 2]], 2, [1, 2], 1⟩] := by decide

/-- C9, amended: when the source yields an error, the stream first flushes
only parts that are already complete (each of size at least `min` — never a
part made from the partially accumulated, below-minimum buffer), then
propagates the error as its next item; the unfinished buffer is retained,
not discarded (no byte is lost), and splitting resumes from it if the
stream is polled past the error. -/
theorem split_error_retains_buffer {ε : Type} (st : Inner) (e : ε)
    (rest : List (Except ε Chunk)) (hmx : st.part_size_min ≤ st.part_size_max)
    (hlen : st.part_content_length ≤ st.part_size_max) :
    runSplitAux st (.error e :: rest) =
      (popAll st).1.map .ok ++ .error e :: runSplitAux (popAll st).2 rest ∧
    partsBytes (popAll st).1 ++ stateBytes (popAll st).2 = stateBytes st ∧
    ∀ p ∈ (popAll st).1, st.part_size_min ≤ p.content_length :=
  ⟨rfl, popAll_bytes st, fun p hp => (popAll_bounds hmx hlen p hp).1⟩

theorem split_error_retains_buffer_witness :
    (((Inner.new 4 8).push [1, 2]).part_size_min ≤
        ((Inner.new 4 8).push [1, 2]).part_size_max ∧
      ((Inner.new 4 8).push [1, 2]).part_content_length ≤
        ((Inner.new 4 8).push [1, 2]).part_size_max) ∧
    (runSplitAux ((Inner.new 4 8).push [1, 2]) [.error (0 : Nat)] =
        (popAll ((Inner.new 4 8).push [1, 2])).1.map .ok ++
          .error 0 :: runSplitAux (popAll ((Inner.new 4 8).push [1, 2])).2 [] ∧
      partsBytes (popAll ((Inner.new 4 8).push [1, 2])).1 ++
          stateBytes (popAll ((Inner.new 4 8).push [1, 2])).2 =
        stateBytes ((Inner.new 4 8).push [1, 2]) ∧
      ∀ p ∈ (popAll ((Inner.new 4 8).push [1, 2])).1,
        ((Inner.new 4 8).push [1, 2]).part_size_min ≤ p.content_length) :=
  ⟨⟨by decide, by decide⟩,
    split_error_retains_buffer ((Inner.new 4 8).push [1, 2]) 0 [] (by decide) (by decide)⟩

/-! ### Dispatcher lemmas -/

lemma isPre_nil {α : Type} (l : List α) : IsPre [] l := ⟨l, rfl⟩

lemma isPre_of_nil {α : Type} {p : List α} (h : IsPre p []) : p = [] := by
  obtain ⟨t, ht⟩ := h
  exact List.append_eq_nil.1 ht |>.1

lemma isPre_cons_cases {α : Type} {p : List α} {a : α} {l : List α}
    (h : IsPre p (a :: l)) : p = [] ∨ ∃ q, p = a :: q ∧ IsPre q l := by
  obtain ⟨t, ht⟩ := h
  cases p with
  | nil => exact Or.inl rfl
  | cons b q =>
    rw [List.cons_append, List.cons.injEq] at ht
    exact Or.inr ⟨q, by rw [ht.1], ⟨t, ht.2⟩⟩

lemma isPre_append_cases {α : Type} {p l₁ l₂ : List α} (h : IsPre p (l₁ ++ l₂)) :
    IsPre p l₁ ∨ ∃ q, p = l₁ ++ q ∧ IsPre q l₂ := by
  induction l₁ generalizing p with
  | nil => exact Or.inr ⟨p, rfl, h⟩
  | cons a l₁ ih =>
    rcases isPre_cons_cases h with rfl | ⟨q, rfl, hq⟩
    · exact Or.inl (isPre_nil _)
    · rcases ih hq with h' | ⟨q', rfl, hq'⟩
      · obtain ⟨t, ht⟩ := h'
        exact Or.inl ⟨t, by rw [List.cons_append, ht]⟩
      · exact Or.inr ⟨q', rfl, hq'⟩

lemma isPre_countP {α : Type} {p l : List α} (f : α → Bool) (h : IsPre p l) :
    p.countP f ≤ l.countP f := by
  obtain ⟨t, ht⟩ := h
  subst ht
  rw [List.countP_append]
  omega

lemma admits_append {τ ε : Type} (a b : List (DEvent τ ε)) :
    admits (a ++ b) = admits a + admits b := by
  unfold admits
  rw [List.countP_append]

lemma completes_append {τ ε : Type} (a b : List (DEvent τ ε)) :
    completes (a ++ b) = completes a + completes b := by
  unfold completes
  rw [List.countP_append]

lemma admits_le_of_isPre {τ ε : Type} {p evs : List (DEvent τ ε)} (h : IsPre p evs) :
    admits p ≤ admits evs := isPre_countP _ h

lemma completes_le_of_isPre {τ ε : Type} {p evs : List (DEvent τ ε)} (h : IsPre p evs) :
    completes p ≤ completes evs := isPre_countP _ h

lemma swapRemove_length {α : Type} (l : List α) (i : Nat) (h : l ≠ []) :
    (swapRemove l i).length = l.length - 1 := by
  unfold swapRemove
  rcases hl : l.getLast? with _ | x
  · exact absurd (List.getLast?_eq_none_iff.1 hl) h
  · rw [List.length_set, List.length_dropLast]

lemma admits_nil {τ ε : Type} : admits ([] : List (DEvent τ ε)) = 0 := rfl

lemma completes_nil {τ ε : Type} : completes ([] : List (DEvent τ ε)) = 0 := rfl

lemma admits_cons_admitted {τ ε : Type} (f : Fut τ ε) (l : List (DEvent τ ε)) :
    admits (.admitted f :: l) = admits l + 1 := by
  simp [admits, List.countP_cons]

lemma admits_cons_sourceError {τ ε : Type} (e : ε) (l : List (DEvent τ ε)) :
    admits (τ := τ) (.sourceError e :: l) = admits l := by
  simp [admits, List.countP_cons]

lemma completes_cons_admitted {τ ε : Type} (f : Fut τ ε) (l : List (DEvent τ ε)) :
    completes (.admitted f :: l) = completes l := by
  simp [completes, List.countP_cons]

lemma completes_cons_complete {τ ε : Type} (t : τ) (l : List (DEvent τ ε)) :
    completes (ε := ε) (.complete t :: l) = completes l + 1 := by
  simp [completes, List.countP_cons]

lemma completes_cons_sourceError {τ ε : Type} (e : ε) (l : List (DEvent τ ε)) :
    completes (τ := τ) (.sourceError e :: l) = completes l := by
  simp [completes, List.countP_cons]

lemma completes_cons_taskError {τ ε : Type} (e : ε) (l : List (DEvent τ ε)) :
    completes (τ := τ) (.taskError e :: l) = completes l := by
  simp [completes, List.countP_cons]

lemma admits_cons_taskError {τ ε : Type} (e : ε) (l : List (DEvent τ ε)) :
    admits (τ := τ) (.taskError e :: l) = admits l := by
  simp [admits, List.countP_cons]

lemma admits_cons_complete {τ ε : Type} (t : τ) (l : List (DEvent τ ε)) :
    admits (ε := ε) (.complete t :: l) = admits l := by
  simp [admits, List.countP_cons]

/-- Bookkeeping for the admission loop: admissions only happen strictly
below the limit (so every prefix of its events keeps the in-flight count at
most `L`), it emits no completions, and on normal exit the futures list has
grown by exactly the number of admissions, still within the limit. -/
lemma admitLoop_bound {τ ε : Type} (L : Nat) :
    ∀ (script : List (StreamEntry τ ε)) (done : Bool) (futures : List (Fut τ ε)),
      futures.length ≤ L →
      (∀ p, IsPre p (admitLoop (some L) script done futures).1 →
        futures.length + admits p ≤ L) ∧
      completes (admitLoop (some L) script done futures).1 = 0 ∧
      (∀ x : List (StreamEntry τ ε) × Bool × List (Fut τ ε),
        (admitLoop (some L) script done futures).2 = .ok x →
        x.2.2.length = futures.length + admits (admitLoop (some L) script done futures).1 ∧
        x.2.2.length ≤ L) := by
  have hsame : ∀ (futures : List (Fut τ ε)), futures.length ≤ L →
      ∀ (s' : List (StreamEntry τ ε)) (d' : Bool),
      (∀ p, IsPre p ([] : List (DEvent τ ε)) → futures.length + admits p ≤ L) ∧
      completes ([] : List (DEvent τ ε)) = 0 ∧
      (∀ x : List (StreamEntry τ ε) × Bool × List (Fut τ ε),
        (Except.ok (s', d', futures) : Except ε _) = .ok x →
        x.2.2.length = futures.length + admits ([] : List (DEvent τ ε)) ∧
        x.2.2.length ≤ L) := by
    intro futures hle s' d'
    refine ⟨?_, rfl, ?_⟩
    · intro p hp
      rw [isPre_of_nil hp, admits_nil]
      omega
    · intro x hx
      injection hx with hx2
      subst hx2
      rw [admits_nil]
      exact ⟨rfl, hle⟩
  intro script
  induction script with
  | nil =>
    intro done futures hle
    have heq : admitLoop (some L) ([] : List (StreamEntry τ ε)) done futures =
        ([], .ok ([], done, futures)) := by
      rw [admitLoop.eq_def]
      split_ifs <;> rfl
    rw [heq]
    exact hsame futures hle [] done
  | cons entry rest ih =>
    intro done futures hle
    by_cases hok : limitOk (some L) futures.length = true
    · by_cases hdone : done = true
      · have heq : admitLoop (some L) (entry :: rest) done futures =
            ([], .ok (entry :: rest, done, futures)) := by
          rw [admitLoop.eq_def, if_pos hok, if_pos hdone]
        rw [heq]
        exact hsame futures hle (entry :: rest) done
      · cases entry with
        | stall =>
          have heq : admitLoop (some L) (.stall :: rest) done futures =
              ([], .ok (rest, done, futures)) := by
            rw [admitLoop.eq_def, if_pos hok, if_neg hdone]
          rw [heq]
          exact hsame futures hle rest done
        | close =>
          have heq : admitLoop (some L) (.close :: rest) done futures =
              ([], .ok (rest, true, futures)) := by
            rw [admitLoop.eq_def, if_pos hok, if_neg hdone]
          rw [heq]
          exact hsame futures hle rest true
        | item x =>
          cases x with
          | error e =>
            have heq : admitLoop (some L) (.item (.error e) :: rest) done futures =
                ([.sourceError e], .error e) := by
              rw [admitLoop.eq_def, if_pos hok, if_neg hdone]
            rw [heq]
            refine ⟨?_, completes_cons_sourceError e [], ?_⟩
            · intro p hp
              rcases isPre_cons_cases hp with rfl | ⟨q, rfl, hq⟩
              · rw [admits_nil]; omega
              · rw [isPre_of_nil hq, admits_cons_sourceError, admits_nil]
                omega
            · intro x hx
              exact Except.noConfusion hx
          | ok f =>
            have hlt : futures.length < L := by
              simpa [limitOk] using hok
            have hle' : (futures ++ [f]).length ≤ L := by
              rw [List.length_append]
              simpa using hlt
            obtain ⟨ih1, ih2, ih3⟩ := ih done (futures ++ [f]) hle'
            have heq : admitLoop (some L) (.item (.ok f) :: rest) done futures =
                (.admitted f :: (admitLoop (some L) rest done (futures ++ [f])).1,
                  (admitLoop (some L) rest done (futures ++ [f])).2) := by
              rw [admitLoop.eq_def, if_pos hok, if_neg hdone]
            rw [heq]
            refine ⟨?_, ?_, ?_⟩
            · intro p hp
              rcases isPre_cons_cases hp with rfl | ⟨q, rfl, hq⟩
              · rw [admits_nil]; omega
              · have := ih1 q hq
                rw [List.length_append] at this
                rw [admits_cons_admitted]
                simp only [List.length_singleton] at this
                omega
            · rw [completes_cons_admitted]
              exact ih2
            · intro x hx
              obtain ⟨h1, h2⟩ := ih3 x hx
              rw [List.length_append] at h1
              rw [admits_cons_admitted]
              simp only [List.length_singleton] at h1
              exact ⟨by omega, h2⟩
    · have heq : admitLoop (some L) (entry :: rest) done futures =
          ([], .ok (entry :: rest, done, futures)) := by
        rw [admitLoop.eq_def, if_neg hok]
      rw [heq]
      exact hsame futures hle (entry :: rest) done

/-- Bookkeeping for the polling sweep: it admits nothing, and on normal
exit the futures list has shrunk by exactly the number of completions. -/
lemma sweepFuel_spec {τ ε : Type} (fuel : Nat) :
    ∀ (futures : List (Fut τ ε)) (i : Nat) (outputs : List τ),
      admits (sweepFuel fuel futures i outputs).1 = 0 ∧
      (∀ x : List (Fut τ ε) × List τ,
        (sweepFuel fuel futures i outputs).2 = .ok x →
        x.1.length + completes (sweepFuel fuel futures i outputs).1 = futures.length) := by
  induction fuel with
  | zero =>
    intro futures i outputs
    refine ⟨rfl, ?_⟩
    intro x hx
    injection hx with hx2
    subst hx2
    rfl
  | succ fuel ih =>
    intro futures i outputs
    by_cases h : i < futures.length
    · rcases hpoll : pollFut (futures.get ⟨i, h⟩) with ⟨o, f'⟩
      cases o with
      | none =>
        have heq : sweepFuel (fuel + 1) futures i outputs =
            sweepFuel fuel (futures.set i f') (i + 1) outputs := by
          simp only [sweepFuel]
          rw [dif_pos h, hpoll]
        rw [heq]
        obtain ⟨ih1, ih2⟩ := ih (futures.set i f') (i + 1) outputs
        refine ⟨ih1, ?_⟩
        intro x hx
        have h2 := ih2 x hx
        rw [List.length_set] at h2
        exact h2
      | some r =>
        cases r with
        | error e =>
          have heq : sweepFuel (fuel + 1) futures i outputs =
              ([.taskError e], .error e) := by
            simp only [sweepFuel]
            rw [dif_pos h, hpoll]
          rw [heq]
          refine ⟨admits_cons_taskError e [], ?_⟩
          intro x hx
          exact Except.noConfusion hx
        | ok t =>
          have heq : sweepFuel (fuel + 1) futures i outputs =
              (.complete t :: (sweepFuel fuel (swapRemove futures i) i (outputs ++ [t])).1,
                (sweepFuel fuel (swapRemove futures i) i (outputs ++ [t])).2) := by
            simp only [sweepFuel]
            rw [dif_pos h, hpoll]
          rw [heq]
          have hne : futures ≠ [] := by
            intro hcon
            rw [hcon] at h
            simp at h
          obtain ⟨ih1, ih2⟩ := ih (swapRemove futures i) i (outputs ++ [t])
          refine ⟨?_, ?_⟩
          · rw [admits_cons_complete]
            exact ih1
          · intro x hx
            have h2 := ih2 x hx
            rw [swapRemove_length futures i hne] at h2
            rw [completes_cons_complete]
            have hpos : 1 ≤ futures.length := by
              rcases futures with _ | _
              · exact absurd rfl hne
              · simp
            omega
    · have heq : sweepFuel (fuel + 1) futures i outputs = ([], .ok (futures, outputs)) := by
        simp only [sweepFuel]
        rw [dif_neg h]
      rw [heq]
      refine ⟨rfl, ?_⟩
      intro x hx
      injection hx with hx2
      subst hx2
      rfl

/-- Event shape of the admission loop: a normal exit logs only error-free
events (admissions), an error exit logs error-free events followed by the
single `sourceError` that is returned. -/
lemma admitLoop_events {τ ε : Type} (limit : Option Nat) :
    ∀ (script : List (StreamEntry τ ε)) (done : Bool) (futures : List (Fut τ ε)),
      (∀ x, (admitLoop limit script done futures).2 = .ok x →
        ∀ ev ∈ (admitLoop limit script done futures).1, ev.errorOf = none) ∧
      (∀ e, (admitLoop limit script done futures).2 = .error e →
        ∃ q, (admitLoop limit script done futures).1 = q ++ [.sourceError e] ∧
          ∀ ev ∈ q, ev.errorOf = none) := by
  intro script
  induction script with
  | nil =>
    intro done futures
    have heq : admitLoop limit ([] : List (StreamEntry τ ε)) done futures =
        ([], .ok ([], done, futures)) := by
      rw [admitLoop.eq_def]
      split_ifs <;> rfl
    rw [heq]
    exact ⟨fun x _ ev hev => absurd hev (by simp), fun e he => Except.noConfusion he⟩
  | cons entry rest ih =>
    intro done futures
    by_cases hok : limitOk limit futures.length = true
    · by_cases hdone : done = true
      · have heq : admitLoop limit (entry :: rest) done futures =
            ([], .ok (entry :: rest, done, futures)) := by
          rw [admitLoop.eq_def, if_pos hok, if_pos hdone]
        rw [heq]
        exact ⟨fun x _ ev hev => absurd hev (by simp), fun e he => Except.noConfusion he⟩
      · cases entry with
        | stall =>
          have heq : admitLoop limit (.stall :: rest) done futures =
              ([], .ok (rest, done, futures)) := by
            rw [admitLoop.eq_def, if_pos hok, if_neg hdone]
          rw [heq]
          exact ⟨fun x _ ev hev => absurd hev (by simp), fun e he => Except.noConfusion he⟩
        | close =>
          have heq : admitLoop limit (.close :: rest) done futures =
              ([], .ok (rest, true, futures)) := by
            rw [admitLoop.eq_def, if_pos hok, if_neg hdone]
          rw [heq]
          exact ⟨fun x _ ev hev => absurd hev (by simp), fun e he => Except.noConfusion he⟩
        | item x =>
          cases x with
          | error e =>
            have heq : admitLoop limit (.item (.error e) :: rest) done futures =
                ([.sourceError e], .error e) := by
              rw [admitLoop.eq_def, if_pos hok, if_neg hdone]
            rw [heq]
            refine ⟨fun x hx => Except.noConfusion hx, ?_⟩
            intro e' he'
            injection he' with he2
            subst he2
            exact ⟨[], rfl, fun ev hev => absurd hev (by simp)⟩
          | ok f =>
            obtain ⟨ih1, ih2⟩ := ih done (futures ++ [f])
            have heq : admitLoop limit (.item (.ok f) :: rest) done futures =
                (.admitted f :: (admitLoop limit rest done (futures ++ [f])).1,
                  (admitLoop limit rest done (futures ++ [f])).2) := by
              rw [admitLoop.eq_def, if_pos hok, if_neg hdone]
            rw [heq]
            refine ⟨?_, ?_⟩
            · intro x hx ev hev
              rcases List.mem_cons.1 hev with rfl | hev
              · rfl
              · exact ih1 x hx ev hev
            · intro e he
              obtain ⟨q, hq1, hq2⟩ := ih2 e he
              refine ⟨.admitted f :: q, by rw [List.cons_append, hq1], ?_⟩
              intro ev hev
              rcases List.mem_cons.1 hev with rfl | hev
              · rfl
              · exact hq2 ev hev
    · have heq : admitLoop limit (entry :: rest) done futures =
          ([], .ok (entry :: rest, done, futures)) := by
        rw [admitLoop.eq_def, if_neg hok]
      rw [heq]
      exact ⟨fun x _ ev hev => absurd hev (by simp), fun e he => Except.noConfusion he⟩

/-- Event shape of the polling sweep: a normal exit logs only error-free
events (completions), an error exit logs error-free events followed by the
single `taskError` that is returned. -/
lemma sweepFuel_events {τ ε : Type} (fuel : Nat) :
    ∀ (futures : List (Fut τ ε)) (i : Nat) (outputs : List τ),
      (∀ x, (sweepFuel fuel futures i outputs).2 = .ok x →
        ∀ ev ∈ (sweepFuel fuel futures i outputs).1, ev.errorOf = none) ∧
      (∀ e, (sweepFuel fuel futures i outputs).2 = .error e →
        ∃ q, (sweepFuel fuel futures i outputs).1 = q ++ [.taskError e] ∧
          ∀ ev ∈ q, ev.errorOf = none) := by
  induction fuel with
  | zero =>
    intro futures i outputs
    exact ⟨fun x _ ev hev => absurd hev (by simp [sweepFuel]), fun e he => Except.noConfusion he⟩
  | succ fuel ih =>
    intro futures i outputs
    by_cases h : i < futures.length
    · rcases hpoll : pollFut (futures.get ⟨i, h⟩) with ⟨o, f'⟩
      cases o with
      | none =>
        have heq : sweepFuel (fuel + 1) futures i outputs =
            sweepFuel fuel (futures.set i f') (i + 1) outputs := by
          simp only [sweepFuel]
          rw [dif_pos h, hpoll]
        rw [heq]
        exact ih (futures.set i f') (i + 1) outputs
      | some r =>
        cases r with
        | error e =>
          have heq : sweepFuel (fuel + 1) futures i outputs =
              ([.taskError e], .error e) := by
            simp only [sweepFuel]
            rw [dif_pos h, hpoll]
          rw [heq]
          refine ⟨fun x hx => Except.noConfusion hx, ?_⟩
          intro e' he'
          injection he' with he2
          subst he2
          exact ⟨[], rfl, fun ev hev => absurd hev (by simp)⟩
        | ok t =>
          have heq : sweepFuel (fuel + 1) futures i outputs =
              (.complete t :: (sweepFuel fuel (swapRemove futures i) i (outputs ++ [t])).1,
                (sweepFuel fuel (swapRemove futures i) i (outputs ++ [t])).2) := by
            simp only [sweepFuel]
            rw [dif_pos h, hpoll]
          rw [heq]
          obtain ⟨ih1, ih2⟩ := ih (swapRemove futures i) i (outputs ++ [t])
          refine ⟨?_, ?_⟩
          · intro x hx ev hev
            rcases List.mem_cons.1 hev with rfl | hev
            · rfl
            · exact ih1 x hx ev hev
          · intro e he
            obtain ⟨q, hq1, hq2⟩ := ih2 e he
            refine ⟨.complete t :: q, by rw [List.cons_append, hq1], ?_⟩
            intro ev hev
            rcases List.mem_cons.1 hev with rfl | hev
            · rfl
            · exact hq2 ev hev
    · have heq : sweepFuel (fuel + 1) futures i outputs = ([], .ok (futures, outputs)) := by
        simp only [sweepFuel]
        rw [dif_neg h]
      rw [heq]
      exact ⟨fun x _ ev hev => absurd hev (by simp), fun e he => Except.noConfusion he⟩

lemma sweep_spec {τ ε : Type} (futures : List (Fut τ ε)) (i : Nat) (outputs : List τ) :
    admits (sweep futures i outputs).1 = 0 ∧
    (∀ x : List (Fut τ ε) × List τ,
      (sweep futures i outputs).2 = .ok x →
      x.1.length + completes (sweep futures i outputs).1 = futures.length) :=
  sweepFuel_spec _ futures i outputs

lemma sweep_events {τ ε : Type} (futures : List (Fut τ ε)) (i : Nat) (outputs : List τ) :
    (∀ x, (sweep futures i outputs).2 = .ok x →
      ∀ ev ∈ (sweep futures i outputs).1, ev.errorOf = none) ∧
    (∀ e, (sweep futures i outputs).2 = .error e →
      ∃ q, (sweep futures i outputs).1 = q ++ [.taskError e] ∧
        ∀ ev ∈ q, ev.errorOf = none) :=
  sweepFuel_events _ futures i outputs

/-- One pass of the loop body keeps the in-flight count within the limit at
every event, and its in-flight bookkeeping matches its event log. -/
lemma iterate_bound {τ ε : Type} (L : Nat) (st : DState τ ε)
    (hst : st.futures.length ≤ L) :
    (∀ p, IsPre p (iterate (some L) st).1 →
      st.futures.length + admits p ≤ completes p + L) ∧
    (∀ evs st', iterate (some L) st = (evs, .next st') →
      st'.futures.length ≤ L ∧
      st.futures.length + admits evs = completes evs + st'.futures.length) := by
  obtain ⟨a1, a2, a3⟩ := admitLoop_bound L st.script st.done st.futures hst
  rcases hadm : admitLoop (some L) st.script st.done st.futures with ⟨evs1, r1⟩
  rw [hadm] at a1 a2 a3
  dsimp only at a1 a2 a3
  cases r1 with
  | error e =>
    have heq : iterate (some L) st = (evs1, .failed e) := by
      unfold iterate
      rw [hadm]
    rw [heq]
    refine ⟨?_, ?_⟩
    · intro p hp
      have := a1 p hp
      omega
    · intro evs st' h
      injection h with h1 h2
      exact StepOut.noConfusion h2
  | ok x =>
    rcases x with ⟨script1, done1, futures1⟩
    obtain ⟨hf1, hf2⟩ := a3 (script1, done1, futures1) rfl
    dsimp only at hf1 hf2
    obtain ⟨s1, s2⟩ := sweep_spec futures1 0 st.outputs
    rcases hsw : sweep futures1 0 st.outputs with ⟨evs2, r2⟩
    rw [hsw] at s1 s2
    dsimp only at s1 s2
    have hpre : ∀ p, IsPre p (evs1 ++ evs2) →
        st.futures.length + admits p ≤ completes p + L := by
      intro p hp
      rcases isPre_append_cases hp with h | ⟨q, rfl, hq⟩
      · have := a1 p h
        omega
      · have hq0 : admits q = 0 :=
          Nat.le_zero.1 (s1 ▸ admits_le_of_isPre hq)
        rw [admits_append, hq0]
        have : st.futures.length + admits evs1 ≤ L := by omega
        omega
    cases r2 with
    | error e =>
      have heq : iterate (some L) st = (evs1 ++ evs2, .failed e) := by
        unfold iterate
        rw [hadm]
        dsimp only
        rw [hsw]
      rw [heq]
      refine ⟨hpre, ?_⟩
      intro evs st' h
      injection h with h1 h2
      exact StepOut.noConfusion h2
    | ok y =>
      rcases y with ⟨futs, outs⟩
      have hy := s2 (futs, outs) rfl
      by_cases hfin : (done1 && futs.isEmpty) = true
      · have heq : iterate (some L) st = (evs1 ++ evs2, .finished outs) := by
          unfold iterate
          rw [hadm]
          dsimp only
          rw [hsw]
          dsimp only
          rw [if_pos hfin]
        rw [heq]
        refine ⟨hpre, ?_⟩
        intro evs st' h
        injection h with h1 h2
        exact StepOut.noConfusion h2
      · have heq : iterate (some L) st =
            (evs1 ++ evs2, .next ⟨script1, done1, futs, outs⟩) := by
          unfold iterate
          rw [hadm]
          dsimp only
          rw [hsw]
          dsimp only
          rw [if_neg hfin]
        rw [heq]
        refine ⟨hpre, ?_⟩
        intro evs st' h
        injection h with h1 h2
        injection h2 with h3
        subst h1
        subst h3
        dsimp only at hy ⊢
        constructor
        · omega
        · rw [admits_append, completes_append, a2, s1]
          omega

/-- Event-log shape of one pass: a pass that continues or finishes logs no
error event; a failing pass logs error-free events followed by exactly one
error event carrying the returned error. -/
lemma iterate_events {τ ε : Type} (limit : Option Nat) (st : DState τ ε) :
    (∀ evs st', iterate limit st = (evs, .next st') → ∀ ev ∈ evs, ev.errorOf = none) ∧
    (∀ evs outs, iterate limit st = (evs, .finished outs) → ∀ ev ∈ evs, ev.errorOf = none) ∧
    (∀ evs e, iterate limit st = (evs, .failed e) →
      ∃ q ev, evs = q ++ [ev] ∧ ev.errorOf = some e ∧ ∀ x ∈ q, x.errorOf = none) := by
  obtain ⟨a1, a2⟩ := admitLoop_events limit st.script st.done st.futures
  rcases hadm : admitLoop limit st.script st.done st.futures with ⟨evs1, r1⟩
  rw [hadm] at a1 a2
  dsimp only at a1 a2
  cases r1 with
  | error e =>
    have heq : iterate limit st = (evs1, .failed e) := by
      unfold iterate
      rw [hadm]
    rw [heq]
    refine ⟨?_, ?_, ?_⟩
    · intro evs st' h
      injection h with h1 h2
      exact StepOut.noConfusion h2
    · intro evs outs h
      injection h with h1 h2
      exact StepOut.noConfusion h2
    · intro evs e' h
      injection h with h1 h2
      injection h2 with h3
      subst h1
      subst h3
      obtain ⟨q, hq1, hq2⟩ := a2 e rfl
      exact ⟨q, .sourceError e, hq1, rfl, hq2⟩
  | ok x =>
    rcases x with ⟨script1, done1, futures1⟩
    have ha_ok : ∀ ev ∈ evs1, DEvent.errorOf ev = none :=
      a1 (script1, done1, futures1) rfl
    obtain ⟨w1, w2⟩ := sweep_events futures1 0 st.outputs
    rcases hsw : sweep futures1 0 st.outputs with ⟨evs2, r2⟩
    rw [hsw] at w1 w2
    dsimp only at w1 w2
    cases r2 with
    | error e =>
      have heq : iterate limit st = (evs1 ++ evs2, .failed e) := by
        unfold iterate
        rw [hadm]
        dsimp only
        rw [hsw]
      rw [heq]
      refine ⟨?_, ?_, ?_⟩
      · intro evs st' h
        injection h with h1 h2
        exact StepOut.noConfusion h2
      · intro evs outs h
        injection h with h1 h2
        exact StepOut.noConfusion h2
      · intro evs e' h
        injection h with h1 h2
        injection h2 with h3
        subst h1
        subst h3
        obtain ⟨q, hq1, hq2⟩ := w2 e rfl
        refine ⟨evs1 ++ q, .taskError e, by rw [hq1, List.append_assoc], rfl, ?_⟩
        intro ev hev
        rcases List.mem_append.1 hev with h | h
        · exact ha_ok ev h
        · exact hq2 ev h
    | ok y =>
      have hw_ok : ∀ ev ∈ evs2, DEvent.errorOf ev = none := w1 y rfl
      have hall : ∀ ev ∈ evs1 ++ evs2, DEvent.errorOf ev = none := by
        intro ev hev
        rcases List.mem_append.1 hev with h | h
        · exact ha_ok ev h
        · exact hw_ok ev h
      rcases y with ⟨futs, outs⟩
      by_cases hfin : (done1 && futs.isEmpty) = true
      · have heq : iterate limit st = (evs1 ++ evs2, .finished outs) := by
          unfold iterate
          rw [hadm]
          dsimp only
          rw [hsw]
          dsimp only
          rw [if_pos hfin]
        rw [heq]
        refine ⟨?_, ?_, ?_⟩
        · intro evs st' h
          injection h with h1 h2
          exact StepOut.noConfusion h2
        · intro evs outs' h
          injection h with h1 h2
          subst h1
          exact hall
        · intro evs e' h
          injection h with h1 h2
          exact StepOut.noConfusion h2
      · have heq : iterate limit st =
            (evs1 ++ evs2, .next ⟨script1, done1, futs, outs⟩) := by
          unfold iterate
          rw [hadm]
          dsimp only
          rw [hsw]
          dsimp only
          rw [if_neg hfin]
        rw [heq]
        refine ⟨?_, ?_, ?_⟩
        · intro evs st' h
          injection h with h1 h2
          subst h1
          exact hall
        · intro evs outs' h
          injection h with h1 h2
          exact StepOut.noConfusion h2
        · intro evs e' h
          injection h with h1 h2
          exact StepOut.noConfusion h2

/-- In-flight bound along a whole run. -/
lemma dispatchRun_bound {τ ε : Type} (L : Nat) :
    ∀ (fuel : Nat) (st : DState τ ε), st.futures.length ≤ L →
      ∀ p, IsPre p (dispatchRun (some L) fuel st).1 →
        st.futures.length + admits p ≤ completes p + L := by
  intro fuel
  induction fuel with
  | zero =>
    intro st hst p hp
    have hp' : p = [] := isPre_of_nil hp
    subst hp'
    rw [admits_nil, completes_nil]
    omega
  | succ fuel ih =>
    intro st hst p hp
    obtain ⟨it1, it2⟩ := iterate_bound L st hst
    rcases hit : iterate (some L) st with ⟨evs, out⟩
    rw [hit] at it1 it2
    cases out with
    | failed e =>
      have heq : dispatchRun (some L) (fuel + 1) st = (evs, some (.error e)) := by
        simp only [dispatchRun]
        rw [hit]
      rw [heq] at hp
      exact it1 p hp
    | finished outs =>
      have heq : dispatchRun (some L) (fuel + 1) st = (evs, some (.ok outs)) := by
        simp only [dispatchRun]
        rw [hit]
      rw [heq] at hp
      exact it1 p hp
    | next st' =>
      have heq : dispatchRun (some L) (fuel + 1) st =
          (evs ++ (dispatchRun (some L) fuel st').1, (dispatchRun (some L) fuel st').2) := by
        simp only [dispatchRun]
        rw [hit]
      rw [heq] at hp
      obtain ⟨hst', hbook⟩ := it2 evs st' rfl
      rcases isPre_append_cases hp with h | ⟨q, rfl, hq⟩
      · exact it1 p h
      · have := ih st' hst' q hq
        rw [admits_append, completes_append]
        omega

/-- First-error shape along a whole run: if the run returns an error, its
event log consists of error-free events followed by exactly one error
event, which carries the returned error. -/
lemma dispatchRun_first_error {τ ε : Type} (limit : Option Nat) :
    ∀ (fuel : Nat) (st : DState τ ε) (e : ε),
      (dispatchRun limit fuel st).2 = some (.error e) →
      ∃ q ev, (dispatchRun limit fuel st).1 = q ++ [ev] ∧ ev.errorOf = some e ∧
        ∀ x ∈ q, x.errorOf = none := by
  intro fuel
  induction fuel with
  | zero =>
    intro st e h
    exact Option.noConfusion h
  | succ fuel ih =>
    intro st e h
    obtain ⟨it1, it2, it3⟩ := iterate_events limit st
    rcases hit : iterate limit st with ⟨evs, out⟩
    rw [hit] at it1 it2 it3
    cases out with
    | failed e' =>
      have heq : dispatchRun limit (fuel + 1) st = (evs, some (.error e')) := by
        simp only [dispatchRun]
        rw [hit]
      rw [heq] at h ⊢
      have he : e' = e := by
        injection h with h1
        injection h1
      subst he
      exact it3 evs e' rfl
    | finished outs =>
      have heq : dispatchRun limit (fuel + 1) st = (evs, some (.ok outs)) := by
        simp only [dispatchRun]
        rw [hit]
      rw [heq] at h
      injection h with h1
      exact Except.noConfusion h1
    | next st' =>
      have heq : dispatchRun limit (fuel + 1) st =
          (evs ++ (dispatchRun limit fuel st').1, (dispatchRun limit fuel st').2) := by
        simp only [dispatchRun]
        rw [hit]
      rw [heq] at h ⊢
      obtain ⟨q, ev, hq1, hq2, hq3⟩ := ih st' e h
      refine ⟨evs ++ q, ev, by rw [hq1, List.append_assoc], hq2, ?_⟩
      intro x hx
      rcases List.mem_append.1 hx with hx | hx
      · exact it1 evs st' rfl x hx
      · exact hq3 x hx

/-- C3: with limit `some L`, at every instant of a `dispatch_concurrent`
execution — i.e. along every prefix of its event log — the number of
admitted-but-unresolved tasks (admissions minus completions) is at most
`L`; in particular no task is pulled from the input while `L` tasks are in
flight. -/
theorem dispatch_concurrent_bounded {τ ε : Type} (L fuel : Nat)
    (script : List (StreamEntry τ ε)) (p : List (DEvent τ ε))
    (hp : IsPre p (dispatch_concurrent script (some L) fuel).1) :
    admits p ≤ completes p + L := by
  have h := dispatchRun_bound L fuel ⟨script, false, [], []⟩ (by simp) p hp
  simpa using h

theorem dispatch_concurrent_bounded_witness :
    IsPre
      [DEvent.admitted ⟨1, .ok 0⟩, .admitted ⟨0, .ok 1⟩, .complete 1, .admitted ⟨0, .ok 2⟩]
      (dispatch_concurrent (ε := Nat)
        [.item (.ok ⟨1, .ok 0⟩), .item (.ok ⟨0, .ok 1⟩), .item (.ok ⟨0, .ok 2⟩), .close]
        (some 2) 10).1 ∧
    admits [DEvent.admitted (ε := Nat) ⟨1, .ok 0⟩, .admitted ⟨0, .ok 1⟩, .complete 1,
        .admitted ⟨0, .ok 2⟩] ≤
      completes [DEvent.admitted (ε := Nat) ⟨1, .ok 0⟩, .admitted ⟨0, .ok 1⟩, .complete 1,
        .admitted ⟨0, .ok 2⟩] + 2 :=
  ⟨⟨[.complete 0, .complete 2], by decide⟩,
    dispatch_concurrent_bounded 2 10
      [.item (.ok ⟨1, .ok 0⟩), .item (.ok ⟨0, .ok 1⟩), .item (.ok ⟨0, .ok 2⟩), .close]
      [.admitted ⟨1, .ok 0⟩, .admitted ⟨0, .ok 1⟩, .complete 1, .admitted ⟨0, .ok 2⟩]
      ⟨[.complete 0, .complete 2], by decide⟩⟩

/-- C6: if `dispatch_concurrent` returns an error, then that error is the
first and only error observed: the event log ends at the very event that
raised it (whether a failed pull from the input or a failed task), every
earlier event is error-free, and in particular no task is admitted after
the error. -/
theorem dispatch_concurrent_first_error {τ ε : Type} (script : List (StreamEntry τ ε))
    (limit : Option Nat) (fuel : Nat) (e : ε)
    (h : (dispatch_concurrent script limit fuel).2 = some (.error e)) :
    ∃ q ev, (dispatch_concurrent script limit fuel).1 = q ++ [ev] ∧
      ev.errorOf = some e ∧ ∀ x ∈ q, x.errorOf = none :=
  dispatchRun_first_error limit fuel ⟨script, false, [], []⟩ e h

theorem dispatch_concurrent_first_error_witness :
    ∃ q ev,
      (dispatch_concurrent (τ := Nat)
          [.item (.ok ⟨0, .error 5⟩), .close] none 3).1 = q ++ [ev] ∧
      ev.errorOf = some 5 ∧ ∀ x ∈ q, x.errorOf = none :=
  dispatch_concurrent_first_error [.item (.ok ⟨0, .error 5⟩), .close] none 3 5 (by decide)

/-! ### Orchestrator lemmas -/

lemma getLast?_cons_of_some {α : Type} {a : α} {l : List α} {c : α}
    (h : l.getLast? = some c) : (a :: l).getLast? = some c := by
  cases l with
  | nil => exact Option.noConfusion h
  | cons b l => rw [List.getLast?_cons_cons]; exact h

lemma getLast?_append_of_some {α : Type} {l₁ l₂ : List α} {c : α}
    (h : l₂.getLast? = some c) : (l₁ ++ l₂).getLast? = some c := by
  induction l₁ with
  | nil => exact h
  | cons a l₁ ih => rw [List.cons_append]; exact getLast?_cons_of_some ih

lemma uploadStep_call {ε : Type} (client : MpuClient ε) (st : MpuState)
    (b : List Chunk) (l : Nat) :
    (uploadStep client st b l).1 = .uploadPart st.partNumber b l := rfl

lemma uploadStep_error {ε : Type} {client : MpuClient ε} {st : MpuState}
    {b : List Chunk} {l : Nat} {e : ε} (h : (uploadStep client st b l).2 = .error e) :
    callError client (uploadStep client st b l).1 = some e := by
  rw [uploadStep_call]
  unfold uploadStep at h
  unfold callError
  dsimp only at h ⊢
  rcases hr : client.uploadPartResult st.partNumber b l with e' | etag <;> rw [hr] at h
  · injection h with h2
    rw [h2]
  · exact Except.noConfusion h

/-- The inner upload loop issues no abort, and if it fails the last call it
issued is the one the client answered with that error. -/
lemma uploadChunkLoopFuel_spec {ε : Type} (client : MpuClient ε) (minP maxP : Nat) :
    ∀ (fuel : Nat) (st : MpuState) (chunks : List Chunk) (size : Nat) (chunk : Chunk),
      S3Call.abortMultipartUpload ∉
        (uploadChunkLoopFuel client minP maxP fuel st chunks size chunk).1 ∧
      (∀ e, (uploadChunkLoopFuel client minP maxP fuel st chunks size chunk).2 = .error e →
        ∃ c, (uploadChunkLoopFuel client minP maxP fuel st chunks size chunk).1.getLast? =
            some c ∧ callError client c = some e) := by
  intro fuel
  induction fuel with
  | zero =>
    intro st chunks size chunk
    exact ⟨by simp [uploadChunkLoopFuel], fun e he => Except.noConfusion he⟩
  | succ fuel ih =>
    intro st chunks size chunk
    by_cases h : minP ≤ size + chunk.length
    · rcases hr : (uploadStep client st (chunks ++ [chunk.take (min chunk.length (maxP - size))])
        (size + min chunk.length (maxP - size))).2 with e | st1
      · have heq : uploadChunkLoopFuel client minP maxP (fuel + 1) st chunks size chunk =
            ([(uploadStep client st
                (chunks ++ [chunk.take (min chunk.length (maxP - size))])
                (size + min chunk.length (maxP - size))).1], .error e) := by
          simp only [uploadChunkLoopFuel]
          rw [if_pos h, hr]
        rw [heq]
        refine ⟨?_, ?_⟩
        · rw [uploadStep_call]
          simp
        · intro e' he'
          injection he' with he2
          subst he2
          exact ⟨_, rfl, uploadStep_error hr⟩
      · have heq : uploadChunkLoopFuel client minP maxP (fuel + 1) st chunks size chunk =
            ((uploadStep client st
                (chunks ++ [chunk.take (min chunk.length (maxP - size))])
                (size + min chunk.length (maxP - size))).1 ::
              (uploadChunkLoopFuel client minP maxP fuel st1 [] 0
                (chunk.drop (min chunk.length (maxP - size)))).1,
              (uploadChunkLoopFuel client minP maxP fuel st1 [] 0
                (chunk.drop (min chunk.length (maxP - size)))).2) := by
          simp only [uploadChunkLoopFuel]
          rw [if_pos h, hr]
        rw [heq]
        obtain ⟨ih1, ih2⟩ := ih st1 [] 0 (chunk.drop (min chunk.length (maxP - size)))
        refine ⟨?_, ?_⟩
        · intro hmem
          rcases List.mem_cons.1 hmem with hmem | hmem
          · rw [uploadStep_call] at hmem
            exact S3Call.noConfusion hmem
          · exact ih1 hmem
        · intro e he
          obtain ⟨c, hc1, hc2⟩ := ih2 e he
          exact ⟨c, getLast?_cons_of_some hc1, hc2⟩
    · have heq : uploadChunkLoopFuel client minP maxP (fuel + 1) st chunks size chunk =
          ([], .ok (st, chunks, size, chunk)) := by
        simp only [uploadChunkLoopFuel]
        rw [if_neg h]
      rw [heq]
      exact ⟨by simp, fun e he => Except.noConfusion he⟩

lemma uploadChunkLoop_spec {ε : Type} (client : MpuClient ε) (minP maxP : Nat)
    (st : MpuState) (chunks : List Chunk) (size : Nat) (chunk : Chunk) :
    S3Call.abortMultipartUpload ∉
      (uploadChunkLoop client minP maxP st chunks size chunk).1 ∧
    (∀ e, (uploadChunkLoop client minP maxP st chunks size chunk).2 = .error e →
      ∃ c, (uploadChunkLoop client minP maxP st chunks size chunk).1.getLast? = some c ∧
        callError client c = some e) :=
  uploadChunkLoopFuel_spec client minP maxP _ st chunks size chunk

/-- The upload loop issues no abort, and if it fails then either the last
call it issued received that error from the client, or the error came from
the byte source itself. -/
lemma mpuLoop_spec {ε : Type} (client : MpuClient ε) (minP maxP : Nat) :
    ∀ (body : List (Except ε Chunk)) (st : MpuState) (chunks : List Chunk) (size : Nat),
      S3Call.abortMultipartUpload ∉ (mpuLoop client minP maxP st chunks size body).1 ∧
      (∀ e, (mpuLoop client minP maxP st chunks size body).2 = .error e →
        (∃ c, (mpuLoop client minP maxP st chunks size body).1.getLast? = some c ∧
          callError client c = some e) ∨ .error e ∈ body) := by
  intro body
  induction body with
  | nil =>
    intro st chunks size
    rcases hr : (uploadStep client st chunks size).2 with e | st1
    · have heq : mpuLoop client minP maxP st chunks size [] =
          ([(uploadStep client st chunks size).1], .error e) := by
        simp only [mpuLoop]
        rw [hr]
      rw [heq]
      refine ⟨?_, ?_⟩
      · rw [uploadStep_call]
        simp
      · intro e' he'
        injection he' with he2
        subst he2
        exact Or.inl ⟨_, rfl, uploadStep_error hr⟩
    · have heq : mpuLoop client minP maxP st chunks size [] =
          ([(uploadStep client st chunks size).1, .completeMultipartUpload st1.parts],
            client.completeResult st1.parts) := by
        simp only [mpuLoop]
        rw [hr]
      rw [heq]
      refine ⟨?_, ?_⟩
      · intro hmem
        rcases List.mem_cons.1 hmem with hmem | hmem
        · rw [uploadStep_call] at hmem
          exact S3Call.noConfusion hmem
        · rcases List.mem_cons.1 hmem with hmem | hmem
          · exact S3Call.noConfusion hmem
          · exact absurd hmem (by simp)
      · intro e he
        refine Or.inl ⟨.completeMultipartUpload st1.parts, rfl, ?_⟩
        simp only [callError]
        rw [show client.completeResult st1.parts = .error e from he]
  | cons item rest ih =>
    intro st chunks size
    cases item with
    | error e' =>
      have heq : mpuLoop client minP maxP st chunks size (.error e' :: rest) =
          ([], .error e') := by
        simp only [mpuLoop]
      rw [heq]
      refine ⟨by simp, ?_⟩
      intro e he
      injection he with he2
      subst he2
      exact Or.inr (List.mem_cons_self _ _)
    | ok chunk =>
      obtain ⟨u1, u2⟩ := uploadChunkLoop_spec client minP maxP st chunks size chunk
      rcases hu : (uploadChunkLoop client minP maxP st chunks size chunk).2 with e | q
      · have heq : mpuLoop client minP maxP st chunks size (.ok chunk :: rest) =
            ((uploadChunkLoop client minP maxP st chunks size chunk).1, .error e) := by
          simp only [mpuLoop]
          rw [hu]
        rw [heq]
        refine ⟨u1, ?_⟩
        intro e' he'
        injection he' with he2
        subst he2
        exact Or.inl (u2 e hu)
      · rcases q with ⟨st1, chunks1, size1, chunk1⟩
        have heq : mpuLoop client minP maxP st chunks size (.ok chunk :: rest) =
            ((uploadChunkLoop client minP maxP st chunks size chunk).1 ++
              (mpuLoop client minP maxP st1
                (if chunk1 = [] then (chunks1, size1)
                  else (chunks1 ++ [chunk1], size1 + chunk1.length)).1
                (if chunk1 = [] then (chunks1, size1)
                  else (chunks1 ++ [chunk1], size1 + chunk1.length)).2 rest).1,
              (mpuLoop client minP maxP st1
                (if chunk1 = [] then (chunks1, size1)
                  else (chunks1 ++ [chunk1], size1 + chunk1.length)).1
                (if chunk1 = [] then (chunks1, size1)
                  else (chunks1 ++ [chunk1], size1 + chunk1.length)).2 rest).2) := by
          simp only [mpuLoop]
          rw [hu]
        rw [heq]
        obtain ⟨ih1, ih2⟩ := ih st1
          (if chunk1 = [] then (chunks1, size1)
            else (chunks1 ++ [chunk1], size1 + chunk1.length)).1
          (if chunk1 = [] then (chunks1, size1)
            else (chunks1 ++ [chunk1], size1 + chunk1.length)).2
        refine ⟨?_, ?_⟩
        · intro hmem
          rcases List.mem_append.1 hmem with hmem | hmem
          · exact u1 hmem
          · exact ih1 hmem
        · intro e he
          rcases ih2 e he with ⟨c, hc1, hc2⟩ | hsrc
          · exact Or.inl ⟨c, getLast?_append_of_some hc1, hc2⟩
          · exact Or.inr (List.mem_cons_of_mem _ hsrc)

/-- C2, counterexample: a concrete run in which `create` succeeds and the
first `upload_part` fails with error `7`: `multipart_upload` returns that
error, but its call trace is exactly `[create, upload_part 1]` — no
`abort` is ever invoked before returning, contradicting the claim that
abort is invoked on every post-create failure. -/
theorem multipart_upload_no_abort_cex :
    (multipart_upload failingUploadClient 4 8 [.ok [0, 1, 2, 3, 4]]).2 = .error 7 ∧
    S3Call.abortMultipartUpload ∉
      (multipart_upload failingUploadClient 4 8 [.ok [0, 1, 2, 3, 4]]).1 ∧
    (multipart_upload failingUploadClient 4 8 [.ok [0, 1, 2, 3, 4]]).1 =
      [.createMultipartUpload, .uploadPart 1 [[0, 1, 2, 3, 4]] 5] := by decide

/-- C2, amended: when `create` succeeds and a later step fails, the
original error is propagated unchanged to the caller — it is either the
client's response to the last remote call issued, or an error of the byte
source — and `multipart_upload` performs no `abort` call at all (in any
run); cleanup of the orphaned upload session is left to the caller. -/
theorem multipart_upload_no_abort {ε : Type} (client : MpuClient ε) (minP maxP : Nat)
    (body : List (Except ε Chunk)) :
    S3Call.abortMultipartUpload ∉ (multipart_upload client minP maxP body).1 ∧
    ∀ e, (multipart_upload client minP maxP body).2 = .error e →
      (∃ c, (multipart_upload client minP maxP body).1.getLast? = some c ∧
        callError client c = some e) ∨ .error e ∈ body := by
  rcases hc : client.createResult with e0 | uid
  · have heq : multipart_upload client minP maxP body =
        ([.createMultipartUpload], .error e0) := by
      unfold multipart_upload
      rw [hc]
    rw [heq]
    refine ⟨by simp, ?_⟩
    intro e he
    injection he with he2
    subst he2
    refine Or.inl ⟨.createMultipartUpload, rfl, ?_⟩
    simp only [callError]
    rw [hc]
  · obtain ⟨m1, m2⟩ := mpuLoop_spec client minP maxP body ⟨[], 1⟩ [] 0
    have heq : multipart_upload client minP maxP body =
        (.createMultipartUpload :: (mpuLoop client minP maxP ⟨[], 1⟩ [] 0 body).1,
          (mpuLoop client minP maxP ⟨[], 1⟩ [] 0 body).2) := by
      unfold multipart_upload
      rw [hc]
    rw [heq]
    refine ⟨?_, ?_⟩
    · intro hmem
      rcases List.mem_cons.1 hmem with hmem | hmem
      · exact S3Call.noConfusion hmem
      · exact m1 hmem
    · intro e he
      rcases m2 e he with ⟨c, hc1, hc2⟩ | hsrc
      · exact Or.inl ⟨c, getLast?_cons_of_some hc1, hc2⟩
      · exact Or.inr hsrc

theorem multipart_upload_no_abort_witness :
    S3Call.abortMultipartUpload ∉
      (multipart_upload failingUploadClient 4 8 [.ok [0, 1, 2, 3, 4]]).1 ∧
    ((∃ c, (multipart_upload failingUploadClient 4 8 [.ok [0, 1, 2, 3, 4]]).1.getLast? =
        some c ∧ callError failingUploadClient c = some 7) ∨
      (.error 7 : Except Nat Chunk) ∈ [.ok [0, 1, 2, 3, 4]]) :=
  ⟨(multipart_upload_no_abort failingUploadClient 4 8 [.ok [0, 1, 2, 3, 4]]).1,
    (multipart_upload_no_abort failingUploadClient 4 8 [.ok [0, 1, 2, 3, 4]]).2 7 (by decide)⟩

/-- C5 (evaluation at the failing input): for a zero-byte source — the
stream yields no chunks — `multipart_upload` does not upload zero parts:
after `create` it still issues its unconditional final `upload_part` with
an empty body and `content_length = 0` (as part number 1) and then calls
`complete` with that single zero-length part, with the configured
`MIN_PART_SIZE`/`MAX_PART_SIZE` constants of the source.  (The split
stream itself, by contrast, emits no part for an empty source:
`Inner::finish` returns `None` for an empty buffer.) -/
theorem multipart_upload_zero_length_part :
    multipart_upload okClient MIN_PART_SIZE MAX_PART_SIZE [] =
      ([.createMultipartUpload, .uploadPart 1 [] 0,
        .completeMultipartUpload [(1, "etag")]], .ok ()) := by decide

/-! ### Model validation

The first example reproduces, item for item, the `test_split` unit test of
`src/split.rs` (chunks `[0,1,2] [3,4] [5..=21] [22,23]`, range `4..=8`); the
other two exercise the dispatcher (limit 2, completion out of admission
order) and the orchestrator (one full part plus a short trailing part). -/

example : split (ε := Nat) [.ok [0, 1, 2], .ok [3, 4], .ok [5, 6, 7, 8, 9, 10, 11, 12, 13, 14, 15, 16, 17, 18, 19, 20, 21], .ok [22, 23]] 4 8 =
    [.ok ⟨[[0, 1, 2], [3, 4]], 5, [0, 1, 2, 3, 4], 1⟩,
     .ok ⟨[[5, 6, 7, 8, 9, 10, 11, 12]], 8, [5, 6, 7, 8, 9, 10, 11, 12], 2⟩,
     .ok ⟨[[13, 14, 15, 16, 17, 18, 19, 20]], 8, [13, 14, 15, 16, 17, 18, 19, 20], 3⟩,
     .ok ⟨[[21], [22, 23]], 3, [21, 22, 23], 4⟩] := by decide

example : dispatch_concurrent (ε := Nat)
    [.item (.ok ⟨1, .ok 0⟩), .item (.ok ⟨0, .ok 1⟩), .item (.ok ⟨0, .ok 2⟩), .close]
    (some 2) 10 =
    ([.admitted ⟨1, .ok 0⟩, .admitted ⟨0, .ok 1⟩, .complete 1, .admitted ⟨0, .ok 2⟩,
      .complete 0, .complete 2], some (.ok [1, 0, 2])) := by decide

example : multipart_upload
    (⟨.ok "uid", fun _ _ _ => .ok "etag", fun _ => .ok ()⟩ : MpuClient Nat) 4 8
    [.ok [0, 1, 2, 3, 4, 5], .ok [6, 7]] =
    ([.createMultipartUpload, .uploadPart 1 [[0, 1, 2, 3, 4, 5]] 6,
      .uploadPart 2 [[6, 7]] 2,
      .completeMultipartUpload [(1, "etag"), (2, "etag")]], .ok ()) := by decide

end S3Mpu
